import Mathlib

/-!
Verification of the binary-search trace engine of `demo_numerique.py`.

The engine exposes five generators, each turning a sorted integer list and a
key into a finite trace of `Step` records: `steps_find_any` (presence search),
`steps_first_occurrence`, `steps_last_occurrence`, `steps_bisect_left` and
`steps_bisect_right`.  Python generators are embedded as functions producing
the whole trace as a `List Step`; the Python floor division `//` is embedded
as `Int.fdiv`, and `arr[m]` as `arr.getD m.toNat 0` (the bounds invariants
proved below show the default is never read on any reachable index).
-/

/-- One observation of algorithm state, mirroring the `Step` dataclass:
current bounds, examined midpoint, comparison tag, narration, terminal flag
and optional integer result. -/
structure Step where
  left : Int
  right : Int
  mid : Int
  relation : String
  explanation : String
  done : Bool := false
  payload : Option Int := none
deriving Repr, DecidableEq

/-- Loop of `steps_find_any` (closed-interval presence search): state is the
pair of bounds `(g, d)`; each iteration examines `m = (g+d)//2` and either
stops on equality or narrows one side. -/
def steps_find_any_loop (arr : List Int) (x : Int) (g d : Int) : List Step :=
  if h : g ≤ d then
    let m := Int.fdiv (g + d) 2
    let v := arr.getD m.toNat 0
    if v = x then
      [⟨g, d, m, "==", "arr[mid]==x (" ++ toString v ++ "==" ++ toString x ++
        ") → trouvé à l\x27indice " ++ toString m ++ ".", true, some m⟩]
    else if v < x then
      ⟨g, d, m, "<", toString v ++ " < " ++ toString x ++
        " → on va à DROITE (g ← m+1 = " ++ toString (m + 1) ++ ").", false, none⟩ ::
        steps_find_any_loop arr x (m + 1) d
    else
      ⟨g, d, m, ">", toString v ++ " > " ++ toString x ++
        " → on va à GAUCHE (d ← m-1 = " ++ toString (m - 1) ++ ").", false, none⟩ ::
        steps_find_any_loop arr x g (m - 1)
  else
    [⟨g, d, if g + d ≥ 0 then Int.fdiv (g + d) 2 else 0, "final", "Non trouvé.",
      true, some (-1)⟩]
termination_by (d + 1 - g).toNat
decreasing_by
  · have := Int.fdiv_eq_ediv (g + d) (b := 2) (by norm_num)
    omega
  · have := Int.fdiv_eq_ediv (g + d) (b := 2) (by norm_num)
    omega

/-- `steps_find_any(arr, x)`: presence search over `[0, len(arr)-1]`. -/
def steps_find_any (arr : List Int) (x : Int) : List Step :=
  steps_find_any_loop arr x 0 ((arr.length : Int) - 1)

/-- Loop of `steps_first_occurrence`: also carries the running best `res`. -/
def steps_first_occurrence_loop (arr : List Int) (x : Int) (g d res : Int) : List Step :=
  if h : g ≤ d then
    let m := Int.fdiv (g + d) 2
    let v := arr.getD m.toNat 0
    if v ≥ x then
      if v = x then
        ⟨g, d, m, "==", "Trouvé " ++ toString x ++ " à " ++ toString m ++
          ". On cherche encore plus à GAUCHE.", false, none⟩ ::
          steps_first_occurrence_loop arr x g (m - 1) m
      else
        ⟨g, d, m, ">=", toString v ++ " >= " ++ toString x ++
          " sans égalité. On va à GAUCHE.", false, none⟩ ::
          steps_first_occurrence_loop arr x g (m - 1) res
    else
      ⟨g, d, m, "<", toString v ++ " < " ++ toString x ++ ". On va à DROITE.",
        false, none⟩ :: steps_first_occurrence_loop arr x (m + 1) d res
  else
    [⟨g, d, g, "final", "Première occurrence = " ++ toString res ++ ".", true, some res⟩]
termination_by (d + 1 - g).toNat
decreasing_by
  · have := Int.fdiv_eq_ediv (g + d) (b := 2) (by norm_num)
    omega
  · have := Int.fdiv_eq_ediv (g + d) (b := 2) (by norm_num)
    omega
  · have := Int.fdiv_eq_ediv (g + d) (b := 2) (by norm_num)
    omega

/-- `steps_first_occurrence(arr, x)`: leftmost match, starting with `res = -1`. -/
def steps_first_occurrence (arr : List Int) (x : Int) : List Step :=
  steps_first_occurrence_loop arr x 0 ((arr.length : Int) - 1) (-1)

/-- Loop of `steps_last_occurrence`: mirror of the first-occurrence loop. -/
def steps_last_occurrence_loop (arr : List Int) (x : Int) (g d res : Int) : List Step :=
  if h : g ≤ d then
    let m := Int.fdiv (g + d) 2
    let v := arr.getD m.toNat 0
    if v ≤ x then
      if v = x then
        ⟨g, d, m, "==", "Trouvé " ++ toString x ++ " à " ++ toString m ++
          ". On cherche encore plus à DROITE.", false, none⟩ ::
          steps_last_occurrence_loop arr x (m + 1) d m
      else
        ⟨g, d, m, "<=", toString v ++ " <= " ++ toString x ++
          " sans égalité. On va à DROITE.", false, none⟩ ::
          steps_last_occurrence_loop arr x (m + 1) d res
    else
      ⟨g, d, m, ">", toString v ++ " > " ++ toString x ++ ". On va à GAUCHE.",
        false, none⟩ :: steps_last_occurrence_loop arr x g (m - 1) res
  else
    [⟨g, d, d, "final", "Dernière occurrence = " ++ toString res ++ ".", true, some res⟩]
termination_by (d + 1 - g).toNat
decreasing_by
  · have := Int.fdiv_eq_ediv (g + d) (b := 2) (by norm_num)
    omega
  · have := Int.fdiv_eq_ediv (g + d) (b := 2) (by norm_num)
    omega
  · have := Int.fdiv_eq_ediv (g + d) (b := 2) (by norm_num)
    omega

/-- `steps_last_occurrence(arr, x)`: rightmost match, starting with `res = -1`. -/
def steps_last_occurrence (arr : List Int) (x : Int) : List Step :=
  steps_last_occurrence_loop arr x 0 ((arr.length : Int) - 1) (-1)

/-- Loop of `steps_bisect_left` (half-open interval `[g, d)`): the yielded
steps record `(g, d-1)` as bounds. -/
def steps_bisect_left_loop (arr : List Int) (x : Int) (g d : Int) : List Step :=
  if h : g < d then
    let m := Int.fdiv (g + d) 2
    let v := arr.getD m.toNat 0
    if v < x then
      ⟨g, d - 1, m, "<", toString v ++ " < " ++ toString x ++ " → g ← m+1 = " ++
        toString (m + 1) ++ ".", false, none⟩ :: steps_bisect_left_loop arr x (m + 1) d
    else
      ⟨g, d - 1, m, ">=", toString v ++ " >= " ++ toString x ++ " → d ← m = " ++
        toString m ++ ".", false, none⟩ :: steps_bisect_left_loop arr x g m
  else
    [⟨g, d - 1, g, "final", "Position d\x27insertion (gauche) = " ++ toString g ++ ".",
      true, some g⟩]
termination_by (d - g).toNat
decreasing_by
  · have := Int.fdiv_eq_ediv (g + d) (b := 2) (by norm_num)
    omega
  · have := Int.fdiv_eq_ediv (g + d) (b := 2) (by norm_num)
    omega

/-- `steps_bisect_left(arr, x)`: leftmost insertion point over `[0, len(arr))`. -/
def steps_bisect_left (arr : List Int) (x : Int) : List Step :=
  steps_bisect_left_loop arr x 0 (arr.length : Int)

/-- Loop of `steps_bisect_right`: same shape with `<=` in place of `<`. -/
def steps_bisect_right_loop (arr : List Int) (x : Int) (g d : Int) : List Step :=
  if h : g < d then
    let m := Int.fdiv (g + d) 2
    let v := arr.getD m.toNat 0
    if v ≤ x then
      ⟨g, d - 1, m, "<=", toString v ++ " <= " ++ toString x ++ " → g ← m+1 = " ++
        toString (m + 1) ++ ".", false, none⟩ :: steps_bisect_right_loop arr x (m + 1) d
    else
      ⟨g, d - 1, m, ">", toString v ++ " > " ++ toString x ++ " → d ← m = " ++
        toString m ++ ".", false, none⟩ :: steps_bisect_right_loop arr x g m
  else
    [⟨g, d - 1, g, "final", "Position d\x27insertion (droite) = " ++ toString g ++ ".",
      true, some g⟩]
termination_by (d - g).toNat
decreasing_by
  · have := Int.fdiv_eq_ediv (g + d) (b := 2) (by norm_num)
    omega
  · have := Int.fdiv_eq_ediv (g + d) (b := 2) (by norm_num)
    omega

/-- `steps_bisect_right(arr, x)`: rightmost insertion point over `[0, len(arr))`. -/
def steps_bisect_right (arr : List Int) (x : Int) : List Step :=
  steps_bisect_right_loop arr x 0 (arr.length : Int)

/-- Result extraction of `run_steps`: iterate over the trace in order and keep
the payload of every step whose `done` flag is set (`None` if no such step). -/
def run_steps_result (t : List Step) : Option Int :=
  t.foldl (fun r s => if s.done then s.payload else r) none

/-- `run_count_occurrences(arr, x)`, reduced to the data it reports: the
occurrence count together with the reported range `[first, last]`.  An absent
key (`first = -1` or no result) reports count `0` and range `[-1, -1]`. -/
def run_count_occurrences (arr : List Int) (x : Int) : Int × Option Int × Option Int :=
  let first := run_steps_result (steps_first_occurrence arr x)
  let last := run_steps_result (steps_last_occurrence arr x)
  match first with
  | none => (0, some (-1), some (-1))
  | some f =>
    if f = -1 then (0, some (-1), some (-1))
    else ((match last with
           | none => 0
           | some l => if l < f then 0 else l - f + 1), some f, last)

/-- The payload carried by the last step of a trace (`none` for an empty
trace or a last step without payload). -/
def terminalPayload (t : List Step) : Option Int := (t.getLast?).bind Step.payload

/-- Bound on trace lengths: `1` for an empty search range of size `0`, and
`log2` of the range size plus `2` otherwise. -/
def logBound (s : Nat) : Nat := if s = 0 then 1 else Nat.log 2 s + 2

/-! ### General helper lemmas -/

/-- Python floor division `// 2` agrees with Euclidean division by `2`. -/
lemma fdiv_two (a : Int) : Int.fdiv a 2 = a / 2 := Int.fdiv_eq_ediv a (by norm_num)

/-- The midpoint `(g+d)//2` of a non-empty closed interval lies inside it. -/
lemma fdiv_mid_bounds {g d : Int} (h : g ≤ d) :
    g ≤ Int.fdiv (g + d) 2 ∧ Int.fdiv (g + d) 2 ≤ d := by
  have := fdiv_two (g + d)
  omega

lemma getD_eq_getElem {arr : List Int} {i : Nat} (hi : i < arr.length) :
    arr.getD i 0 = arr[i] := by
  simp [List.getD_eq_getElem?_getD, List.getElem?_eq_getElem hi]

lemma mem_iff_getD {arr : List Int} {x : Int} :
    x ∈ arr ↔ ∃ i : Nat, i < arr.length ∧ arr.getD i 0 = x := by
  rw [List.mem_iff_getElem]
  constructor
  · rintro ⟨i, hi, h⟩
    exact ⟨i, hi, by rw [getD_eq_getElem hi]; exact h⟩
  · rintro ⟨i, hi, h⟩
    exact ⟨i, hi, by rw [← getD_eq_getElem hi]; exact h⟩

/-- Monotone access to a non-decreasingly sorted list. -/
lemma sorted_getD_mono {arr : List Int} (hs : List.Sorted (· ≤ ·) arr) {i j : Nat}
    (hij : i ≤ j) (hj : j < arr.length) : arr.getD i 0 ≤ arr.getD j 0 := by
  have hi : i < arr.length := Nat.lt_of_le_of_lt hij hj
  rw [getD_eq_getElem hi, getD_eq_getElem hj]
  have := hs.rel_get_of_le (a := ⟨i, hi⟩) (b := ⟨j, hj⟩) hij
  simpa [List.get_eq_getElem] using this

lemma terminalPayload_append {t : List Step} {s : Step} :
    terminalPayload (t ++ [s]) = s.payload := by
  unfold terminalPayload
  rw [List.getLast?_concat]
  rfl

lemma terminalPayload_cons {s : Step} {t : List Step} (h : t ≠ []) :
    terminalPayload (s :: t) = terminalPayload t := by
  match t with
  | [] => exact absurd rfl h
  | a :: t' => unfold terminalPayload; rw [List.getLast?_cons_cons]

lemma terminalPayload_singleton {s : Step} : terminalPayload [s] = s.payload := rfl

/-- A fold that ignores non-`done` steps leaves its accumulator unchanged. -/
lemma foldl_result_skip (t : List Step) (r : Option Int) (h : ∀ u ∈ t, u.done = false) :
    t.foldl (fun r s => if s.done then s.payload else r) r = r := by
  induction t generalizing r with
  | nil => rfl
  | cons a t ih =>
    have ha := h a (by simp)
    rw [List.foldl_cons, if_neg (by simp [ha])]
    exact ih r (fun u hu => h u (by simp [hu]))

/-- On a trace made of non-`done` steps followed by one `done` step, the
`run_steps` result is that step's payload, i.e. the terminal payload. -/
lemma run_steps_result_eq (t : List Step) (s : Step)
    (h : ∀ u ∈ t, u.done = false) (hd : s.done = true) :
    run_steps_result (t ++ [s]) = s.payload := by
  unfold run_steps_result
  rw [List.foldl_append, foldl_result_skip t none h]
  simp [hd]

/-- Arithmetic step for the logarithmic length bound. -/
lemma logBound_le {s s' : Nat} (h1 : 1 ≤ s) (h2 : s' ≤ s / 2) :
    logBound s' + 1 ≤ logBound s := by
  unfold logBound
  rcases Nat.eq_zero_or_pos s' with rfl | hs'
  · rw [if_pos rfl, if_neg (by omega)]
    omega
  · have hs2 : 2 ≤ s := by omega
    rw [if_neg (by omega), if_neg (by omega)]
    have hlog : Nat.log 2 s = Nat.log 2 (s / 2) + 1 :=
      Nat.log_of_one_lt_of_le (by norm_num) hs2
    have hmono : Nat.log 2 s' ≤ Nat.log 2 (s / 2) := Nat.log_mono_right h2
    omega

lemma logBound_le_log2 (n : Nat) : logBound n ≤ Nat.log2 n + 2 := by
  unfold logBound
  rw [Nat.log2_eq_log_two]
  split <;> omega

/-! ### Presence search (`steps_find_any`) -/

/-- Every presence trace splits as loop steps (not `done`) followed by a
single `done` step; a `"final"` last step has crossed bounds, payload `-1`
and the synthetic midpoint of the source. -/
lemma find_any_loop_split (arr : List Int) (x : Int) (g d : Int) :
    ∃ t s, steps_find_any_loop arr x g d = t ++ [s] ∧ s.done = true ∧
      (∀ u ∈ t, u.done = false) ∧
      (s.relation = "final" →
        s.right < s.left ∧ s.payload = some (-1) ∧
        s.mid = (if s.left + s.right ≥ 0 then Int.fdiv (s.left + s.right) 2 else 0)) := by
  induction g, d using steps_find_any_loop.induct arr x with
  | case1 g d hgd m v hv =>
    refine ⟨[], ⟨g, d, m, "==", "arr[mid]==x (" ++ toString v ++ "==" ++ toString x ++
      ") → trouvé à l\x27indice " ++ toString m ++ ".", true, some m⟩, ?_, rfl, by simp, ?_⟩
    · rw [steps_find_any_loop]
      simp only [dif_pos hgd, if_pos hv]
      rfl
    · intro hrel
      simp at hrel
  | case2 g d hgd m v hne hlt ih =>
    obtain ⟨t, s, heq, hdone, hall, hfin⟩ := ih
    refine ⟨⟨g, d, m, "<", toString v ++ " < " ++ toString x ++
      " → on va à DROITE (g ← m+1 = " ++ toString (m + 1) ++ ").", false, none⟩ :: t,
      s, ?_, hdone, ?_, hfin⟩
    · rw [steps_find_any_loop]
      simp only [dif_pos hgd, if_neg hne, if_pos hlt]
      rw [heq]
      rfl
    · intro u hu
      rcases List.mem_cons.mp hu with rfl | hu
      · rfl
      · exact hall u hu
  | case3 g d hgd m v hne hnlt ih =>
    obtain ⟨t, s, heq, hdone, hall, hfin⟩ := ih
    refine ⟨⟨g, d, m, ">", toString v ++ " > " ++ toString x ++
      " → on va à GAUCHE (d ← m-1 = " ++ toString (m - 1) ++ ").", false, none⟩ :: t,
      s, ?_, hdone, ?_, hfin⟩
    · rw [steps_find_any_loop]
      simp only [dif_pos hgd, if_neg hne, if_neg hnlt]
      rw [heq]
      rfl
    · intro u hu
      rcases List.mem_cons.mp hu with rfl | hu
      · rfl
      · exact hall u hu
  | case4 g d hgd =>
    refine ⟨[], ⟨g, d, if g + d ≥ 0 then Int.fdiv (g + d) 2 else 0, "final", "Non trouvé.",
      true, some (-1)⟩, ?_, rfl, by simp, ?_⟩
    · rw [steps_find_any_loop]
      simp only [dif_neg hgd]
      rfl
    · intro _
      exact ⟨by show d < g; omega, rfl, rfl⟩

lemma find_any_loop_ne_nil (arr : List Int) (x : Int) (g d : Int) :
    steps_find_any_loop arr x g d ≠ [] := by
  obtain ⟨t, s, heq, -⟩ := find_any_loop_split arr x g d
  simp [heq]

/-- Invariant-carrying correctness of the presence loop: if every occurrence
of `x` lies inside `[g, d] ⊆ [0, n)`, the terminal payload is either an index
holding `x` or `-1` when `x` does not occur. -/
lemma find_any_loop_spec (arr : List Int) (x : Int) (hs : List.Sorted (· ≤ ·) arr)
    (g d : Int) :
    0 ≤ g → d < (arr.length : Int) →
    (∀ i : Nat, i < arr.length → arr.getD i 0 = x → g ≤ (i : Int) ∧ (i : Int) ≤ d) →
    (x ∈ arr → ∃ i : Nat, i < arr.length ∧ arr.getD i 0 = x ∧
        terminalPayload (steps_find_any_loop arr x g d) = some (i : Int)) ∧
    (x ∉ arr → terminalPayload (steps_find_any_loop arr x g d) = some (-1)) := by
  induction g, d using steps_find_any_loop.induct arr x with
  | case1 g d hgd m v hv =>
    intro hg hd _
    have hm := fdiv_mid_bounds hgd
    have htr : terminalPayload (steps_find_any_loop arr x g d) = some m := by
      rw [steps_find_any_loop]
      simp only [dif_pos hgd, if_pos hv]
      exact terminalPayload_singleton
    constructor
    · intro _
      refine ⟨m.toNat, by omega, ?_, ?_⟩
      · exact hv
      · rw [htr]
        congr 1
        omega
    · intro hnot
      exact absurd (mem_iff_getD.mpr ⟨m.toNat, by omega, hv⟩) hnot
  | case2 g d hgd m v hne hlt ih =>
    intro hg hd hinv
    have hm := fdiv_mid_bounds hgd
    have hinv' : ∀ i : Nat, i < arr.length → arr.getD i 0 = x →
        m + 1 ≤ (i : Int) ∧ (i : Int) ≤ d := by
      intro i hi hix
      refine ⟨?_, (hinv i hi hix).2⟩
      by_contra hcon
      push_neg at hcon
      have h1 : arr.getD i 0 ≤ arr.getD m.toNat 0 := sorted_getD_mono hs (by omega) (by omega)
      rw [hix] at h1
      omega
    have hrec := ih (by omega) hd hinv'
    have htr : terminalPayload (steps_find_any_loop arr x g d) =
        terminalPayload (steps_find_any_loop arr x (m + 1) d) := by
      rw [steps_find_any_loop]
      simp only [dif_pos hgd, if_neg hne, if_pos hlt]
      exact terminalPayload_cons (find_any_loop_ne_nil arr x (m + 1) d)
    rw [htr]
    exact hrec
  | case3 g d hgd m v hne hnlt ih =>
    intro hg hd hinv
    have hm := fdiv_mid_bounds hgd
    have hinv' : ∀ i : Nat, i < arr.length → arr.getD i 0 = x →
        g ≤ (i : Int) ∧ (i : Int) ≤ m - 1 := by
      intro i hi hix
      refine ⟨(hinv i hi hix).1, ?_⟩
      by_contra hcon
      push_neg at hcon
      have h1 : arr.getD m.toNat 0 ≤ arr.getD i 0 := sorted_getD_mono hs (by omega) hi
      rw [hix] at h1
      omega
    have hrec := ih hg (by omega) hinv'
    have htr : terminalPayload (steps_find_any_loop arr x g d) =
        terminalPayload (steps_find_any_loop arr x g (m - 1)) := by
      rw [steps_find_any_loop]
      simp only [dif_pos hgd, if_neg hne, if_neg hnlt]
      exact terminalPayload_cons (find_any_loop_ne_nil arr x g (m - 1))
    rw [htr]
    exact hrec
  | case4 g d hgd =>
    intro _ _ hinv
    have htr : terminalPayload (steps_find_any_loop arr x g d) = some (-1) := by
      rw [steps_find_any_loop]
      simp only [dif_neg hgd]
      exact terminalPayload_singleton
    constructor
    · intro hmem
      obtain ⟨i, hi, hix⟩ := mem_iff_getD.mp hmem
      have := hinv i hi hix
      omega
    · intro _
      exact htr

/-! ### First occurrence (`steps_first_occurrence`) -/

/-- Every first-occurrence trace is non-`done` loop steps followed by one
`done` step. -/
lemma first_occ_loop_split (arr : List Int) (x : Int) (g d res : Int) :
    ∃ t s, steps_first_occurrence_loop arr x g d res = t ++ [s] ∧ s.done = true ∧
      (∀ u ∈ t, u.done = false) := by
  induction g, d, res using steps_first_occurrence_loop.induct arr x with
  | case1 g d res hgd m v hge hv ih =>
    obtain ⟨t, s, heq, hdone, hall⟩ := ih
    refine ⟨⟨g, d, m, "==", "Trouvé " ++ toString x ++ " à " ++ toString m ++
      ". On cherche encore plus à GAUCHE.", false, none⟩ :: t, s, ?_, hdone, ?_⟩
    · rw [steps_first_occurrence_loop]
      simp only [dif_pos hgd, if_pos hge, if_pos hv]
      rw [heq]
      rfl
    · intro u hu
      rcases List.mem_cons.mp hu with rfl | hu
      · rfl
      · exact hall u hu
  | case2 g d res hgd m v hge hv ih =>
    obtain ⟨t, s, heq, hdone, hall⟩ := ih
    refine ⟨⟨g, d, m, ">=", toString v ++ " >= " ++ toString x ++
      " sans égalité. On va à GAUCHE.", false, none⟩ :: t, s, ?_, hdone, ?_⟩
    · rw [steps_first_occurrence_loop]
      simp only [dif_pos hgd, if_pos hge, if_neg hv]
      rw [heq]
      rfl
    · intro u hu
      rcases List.mem_cons.mp hu with rfl | hu
      · rfl
      · exact hall u hu
  | case3 g d res hgd m v hge ih =>
    obtain ⟨t, s, heq, hdone, hall⟩ := ih
    refine ⟨⟨g, d, m, "<", toString v ++ " < " ++ toString x ++ ". On va à DROITE.",
      false, none⟩ :: t, s, ?_, hdone, ?_⟩
    · rw [steps_first_occurrence_loop]
      simp only [dif_pos hgd, if_neg hge]
      rw [heq]
      rfl
    · intro u hu
      rcases List.mem_cons.mp hu with rfl | hu
      · rfl
      · exact hall u hu
  | case4 g d res hgd =>
    refine ⟨[], ⟨g, d, g, "final", "Première occurrence = " ++ toString res ++ ".",
      true, some res⟩, ?_, rfl, by simp⟩
    rw [steps_first_occurrence_loop]
    simp only [dif_neg hgd]
    rfl

lemma first_occ_loop_ne_nil (arr : List Int) (x : Int) (g d res : Int) :
    steps_first_occurrence_loop arr x g d res ≠ [] := by
  obtain ⟨t, s, heq, -⟩ := first_occ_loop_split arr x g d res
  simp [heq]

/-- Invariant-carrying correctness of the first-occurrence loop.  The
invariants: everything strictly left of `g` is `< x`; when no match has been
recorded, everything strictly right of `d` is `> x`; when a match `res` has
been recorded it is an occurrence of `x`, lies strictly right of `d`, and is
the least occurrence strictly right of `d`. -/
lemma first_occ_loop_spec (arr : List Int) (x : Int) (hs : List.Sorted (· ≤ ·) arr)
    (g d res : Int) :
    0 ≤ g → d < (arr.length : Int) →
    (∀ i : Nat, i < arr.length → (i : Int) < g → arr.getD i 0 < x) →
    (res = -1 → ∀ i : Nat, i < arr.length → d < (i : Int) → x < arr.getD i 0) →
    (res ≠ -1 → 0 ≤ res ∧ res < (arr.length : Int) ∧ arr.getD res.toNat 0 = x ∧
      d < res ∧
      (∀ i : Nat, i < arr.length → d < (i : Int) → arr.getD i 0 = x → res ≤ (i : Int))) →
    (x ∈ arr → ∃ i : Nat, i < arr.length ∧ arr.getD i 0 = x ∧
        (∀ j : Nat, j < i → arr.getD j 0 ≠ x) ∧
        terminalPayload (steps_first_occurrence_loop arr x g d res) = some (i : Int)) ∧
    (x ∉ arr → terminalPayload (steps_first_occurrence_loop arr x g d res) = some (-1)) := by
  induction g, d, res using steps_first_occurrence_loop.induct arr x with
  | case1 g d res hgd m v hge hv ih =>
    intro hg hd h1 _ _
    have hm := fdiv_mid_bounds hgd
    have h2' : (m : Int) = -1 → ∀ i : Nat, i < arr.length → m - 1 < (i : Int) →
        x < arr.getD i 0 := by
      intro hm1
      omega
    have h3' : m ≠ -1 → 0 ≤ m ∧ m < (arr.length : Int) ∧ arr.getD m.toNat 0 = x ∧
        m - 1 < m ∧
        (∀ i : Nat, i < arr.length → m - 1 < (i : Int) → arr.getD i 0 = x →
          m ≤ (i : Int)) := by
      intro _
      exact ⟨by omega, by omega, hv, by omega, fun i _ hmi _ => by omega⟩
    have hrec := ih hg (by omega) h1 h2' h3'
    have htr : terminalPayload (steps_first_occurrence_loop arr x g d res) =
        terminalPayload (steps_first_occurrence_loop arr x g (m - 1) m) := by
      rw [steps_first_occurrence_loop]
      simp only [dif_pos hgd, if_pos hge, if_pos hv]
      exact terminalPayload_cons (first_occ_loop_ne_nil arr x g (m - 1) m)
    rw [htr]
    exact hrec
  | case2 g d res hgd m v hge hv ih =>
    intro hg hd h1 h2 h3
    have hm := fdiv_mid_bounds hgd
    have h2' : res = -1 → ∀ i : Nat, i < arr.length → m - 1 < (i : Int) →
        x < arr.getD i 0 := by
      intro hres i hi hmi
      have hmono : arr.getD m.toNat 0 ≤ arr.getD i 0 :=
        sorted_getD_mono hs (by omega) hi
      omega
    have h3' : res ≠ -1 → 0 ≤ res ∧ res < (arr.length : Int) ∧
        arr.getD res.toNat 0 = x ∧ m - 1 < res ∧
        (∀ i : Nat, i < arr.length → m - 1 < (i : Int) → arr.getD i 0 = x →
          res ≤ (i : Int)) := by
      intro hres
      obtain ⟨hr0, hrn, hrx, hdr, hmin⟩ := h3 hres
      refine ⟨hr0, hrn, hrx, by omega, ?_⟩
      intro i hi hmi hix
      by_cases hc : d < (i : Int)
      · exact hmin i hi hc hix
      · exfalso
        have hmono : arr.getD m.toNat 0 ≤ arr.getD i 0 :=
          sorted_getD_mono hs (by omega) hi
        omega
    have hrec := ih hg (by omega) h1 h2' h3'
    have htr : terminalPayload (steps_first_occurrence_loop arr x g d res) =
        terminalPayload (steps_first_occurrence_loop arr x g (m - 1) res) := by
      rw [steps_first_occurrence_loop]
      simp only [dif_pos hgd, if_pos hge, if_neg hv]
      exact terminalPayload_cons (first_occ_loop_ne_nil arr x g (m - 1) res)
    rw [htr]
    exact hrec
  | case3 g d res hgd m v hge ih =>
    intro hg hd h1 h2 h3
    have hm := fdiv_mid_bounds hgd
    have h1' : ∀ i : Nat, i < arr.length → (i : Int) < m + 1 → arr.getD i 0 < x := by
      intro i hi him
      have hmono : arr.getD i 0 ≤ arr.getD m.toNat 0 :=
        sorted_getD_mono hs (by omega) (by omega)
      omega
    have hrec := ih (by omega) hd h1' h2 h3
    have htr : terminalPayload (steps_first_occurrence_loop arr x g d res) =
        terminalPayload (steps_first_occurrence_loop arr x (m + 1) d res) := by
      rw [steps_first_occurrence_loop]
      simp only [dif_pos hgd, if_neg hge]
      exact terminalPayload_cons (first_occ_loop_ne_nil arr x (m + 1) d res)
    rw [htr]
    exact hrec
  | case4 g d res hgd =>
    intro hg hd h1 h2 h3
    have htr : terminalPayload (steps_first_occurrence_loop arr x g d res) = some res := by
      rw [steps_first_occurrence_loop]
      simp only [dif_neg hgd]
      exact terminalPayload_singleton
    constructor
    · intro hmem
      obtain ⟨j, hj, hjx⟩ := mem_iff_getD.mp hmem
      have hdj : d < (j : Int) := by
        by_contra hc
        push_neg at hc
        have := h1 j hj (by omega)
        omega
      have hres : res ≠ -1 := by
        intro hr
        have := h2 hr j hj hdj
        omega
      obtain ⟨hr0, hrn, hrx, hdr, hmin⟩ := h3 hres
      refine ⟨res.toNat, by omega, hrx, ?_, ?_⟩
      · intro j' hj' hx'
        have hj'n : j' < arr.length := by omega
        by_cases hc : (j' : Int) < g
        · have := h1 j' hj'n hc
          omega
        · have := hmin j' hj'n (by omega) hx'
          omega
      · rw [htr]
        congr 1
        omega
    · intro hnot
      have hres : res = -1 := by
        by_contra hres
        obtain ⟨hr0, hrn, hrx, -⟩ := h3 hres
        exact hnot (mem_iff_getD.mpr ⟨res.toNat, by omega, hrx⟩)
      rw [htr, hres]

/-! ### Last occurrence (`steps_last_occurrence`) -/

/-- Every last-occurrence trace is non-`done` loop steps followed by one
`done` step. -/
lemma last_occ_loop_split (arr : List Int) (x : Int) (g d res : Int) :
    ∃ t s, steps_last_occurrence_loop arr x g d res = t ++ [s] ∧ s.done = true ∧
      (∀ u ∈ t, u.done = false) := by
  induction g, d, res using steps_last_occurrence_loop.induct arr x with
  | case1 g d res hgd m v hle hv ih =>
    obtain ⟨t, s, heq, hdone, hall⟩ := ih
    refine ⟨⟨g, d, m, "==", "Trouvé " ++ toString x ++ " à " ++ toString m ++
      ". On cherche encore plus à DROITE.", false, none⟩ :: t, s, ?_, hdone, ?_⟩
    · rw [steps_last_occurrence_loop]
      simp only [dif_pos hgd, if_pos hle, if_pos hv]
      rw [heq]
      rfl
    · intro u hu
      rcases List.mem_cons.mp hu with rfl | hu
      · rfl
      · exact hall u hu
  | case2 g d res hgd m v hle hv ih =>
    obtain ⟨t, s, heq, hdone, hall⟩ := ih
    refine ⟨⟨g, d, m, "<=", toString v ++ " <= " ++ toString x ++
      " sans égalité. On va à DROITE.", false, none⟩ :: t, s, ?_, hdone, ?_⟩
    · rw [steps_last_occurrence_loop]
      simp only [dif_pos hgd, if_pos hle, if_neg hv]
      rw [heq]
      rfl
    · intro u hu
      rcases List.mem_cons.mp hu with rfl | hu
      · rfl
      · exact hall u hu
  | case3 g d res hgd m v hle ih =>
    obtain ⟨t, s, heq, hdone, hall⟩ := ih
    refine ⟨⟨g, d, m, ">", toString v ++ " > " ++ toString x ++ ". On va à GAUCHE.",
      false, none⟩ :: t, s, ?_, hdone, ?_⟩
    · rw [steps_last_occurrence_loop]
      simp only [dif_pos hgd, if_neg hle]
      rw [heq]
      rfl
    · intro u hu
      rcases List.mem_cons.mp hu with rfl | hu
      · rfl
      · exact hall u hu
  | case4 g d res hgd =>
    refine ⟨[], ⟨g, d, d, "final", "Dernière occurrence = " ++ toString res ++ ".",
      true, some res⟩, ?_, rfl, by simp⟩
    rw [steps_last_occurrence_loop]
    simp only [dif_neg hgd]
    rfl

lemma last_occ_loop_ne_nil (arr : List Int) (x : Int) (g d res : Int) :
    steps_last_occurrence_loop arr x g d res ≠ [] := by
  obtain ⟨t, s, heq, -⟩ := last_occ_loop_split arr x g d res
  simp [heq]

/-- Invariant-carrying correctness of the last-occurrence loop (mirror of the
first-occurrence invariants). -/
lemma last_occ_loop_spec (arr : List Int) (x : Int) (hs : List.Sorted (· ≤ ·) arr)
    (g d res : Int) :
    0 ≤ g → d < (arr.length : Int) →
    (∀ i : Nat, i < arr.length → d < (i : Int) → x < arr.getD i 0) →
    (res = -1 → ∀ i : Nat, i < arr.length → (i : Int) < g → arr.getD i 0 < x) →
    (res ≠ -1 → 0 ≤ res ∧ res < (arr.length : Int) ∧ arr.getD res.toNat 0 = x ∧
      res < g ∧
      (∀ i : Nat, i < arr.length → (i : Int) < g → arr.getD i 0 = x → (i : Int) ≤ res)) →
    (x ∈ arr → ∃ i : Nat, i < arr.length ∧ arr.getD i 0 = x ∧
        (∀ j : Nat, i < j → j < arr.length → arr.getD j 0 ≠ x) ∧
        terminalPayload (steps_last_occurrence_loop arr x g d res) = some (i : Int)) ∧
    (x ∉ arr → terminalPayload (steps_last_occurrence_loop arr x g d res) = some (-1)) := by
  induction g, d, res using steps_last_occurrence_loop.induct arr x with
  | case1 g d res hgd m v hle hv ih =>
    intro hg hd h1 _ _
    have hm := fdiv_mid_bounds hgd
    have h2' : (m : Int) = -1 → ∀ i : Nat, i < arr.length → (i : Int) < m + 1 →
        arr.getD i 0 < x := by
      intro hm1
      omega
    have h3' : m ≠ -1 → 0 ≤ m ∧ m < (arr.length : Int) ∧ arr.getD m.toNat 0 = x ∧
        m < m + 1 ∧
        (∀ i : Nat, i < arr.length → (i : Int) < m + 1 → arr.getD i 0 = x →
          (i : Int) ≤ m) := by
      intro _
      exact ⟨by omega, by omega, hv, by omega, fun i _ him _ => by omega⟩
    have hrec := ih (by omega) hd h1 h2' h3'
    have htr : terminalPayload (steps_last_occurrence_loop arr x g d res) =
        terminalPayload (steps_last_occurrence_loop arr x (m + 1) d m) := by
      rw [steps_last_occurrence_loop]
      simp only [dif_pos hgd, if_pos hle, if_pos hv]
      exact terminalPayload_cons (last_occ_loop_ne_nil arr x (m + 1) d m)
    rw [htr]
    exact hrec
  | case2 g d res hgd m v hle hv ih =>
    intro hg hd h1 h2 h3
    have hm := fdiv_mid_bounds hgd
    have h2' : res = -1 → ∀ i : Nat, i < arr.length → (i : Int) < m + 1 →
        arr.getD i 0 < x := by
      intro hres i hi him
      have hmono : arr.getD i 0 ≤ arr.getD m.toNat 0 :=
        sorted_getD_mono hs (by omega) (by omega)
      omega
    have h3' : res ≠ -1 → 0 ≤ res ∧ res < (arr.length : Int) ∧
        arr.getD res.toNat 0 = x ∧ res < m + 1 ∧
        (∀ i : Nat, i < arr.length → (i : Int) < m + 1 → arr.getD i 0 = x →
          (i : Int) ≤ res) := by
      intro hres
      obtain ⟨hr0, hrn, hrx, hrg, hmax⟩ := h3 hres
      refine ⟨hr0, hrn, hrx, by omega, ?_⟩
      intro i hi him hix
      by_cases hc : (i : Int) < g
      · exact hmax i hi hc hix
      · exfalso
        have hmono : arr.getD i 0 ≤ arr.getD m.toNat 0 :=
          sorted_getD_mono hs (by omega) (by omega)
        omega
    have hrec := ih (by omega) hd h1 h2' h3'
    have htr : terminalPayload (steps_last_occurrence_loop arr x g d res) =
        terminalPayload (steps_last_occurrence_loop arr x (m + 1) d res) := by
      rw [steps_last_occurrence_loop]
      simp only [dif_pos hgd, if_pos hle, if_neg hv]
      exact terminalPayload_cons (last_occ_loop_ne_nil arr x (m + 1) d res)
    rw [htr]
    exact hrec
  | case3 g d res hgd m v hle ih =>
    intro hg hd h1 h2 h3
    have hm := fdiv_mid_bounds hgd
    have h1' : ∀ i : Nat, i < arr.length → m - 1 < (i : Int) → x < arr.getD i 0 := by
      intro i hi him
      have hmono : arr.getD m.toNat 0 ≤ arr.getD i 0 :=
        sorted_getD_mono hs (by omega) hi
      omega
    have hrec := ih hg (by omega) h1' h2 h3
    have htr : terminalPayload (steps_last_occurrence_loop arr x g d res) =
        terminalPayload (steps_last_occurrence_loop arr x g (m - 1) res) := by
      rw [steps_last_occurrence_loop]
      simp only [dif_pos hgd, if_neg hle]
      exact terminalPayload_cons (last_occ_loop_ne_nil arr x g (m - 1) res)
    rw [htr]
    exact hrec
  | case4 g d res hgd =>
    intro hg hd h1 h2 h3
    have htr : terminalPayload (steps_last_occurrence_loop arr x g d res) = some res := by
      rw [steps_last_occurrence_loop]
      simp only [dif_neg hgd]
      exact terminalPayload_singleton
    constructor
    · intro hmem
      obtain ⟨j, hj, hjx⟩ := mem_iff_getD.mp hmem
      have hjg : (j : Int) < g := by
        by_contra hc
        push_neg at hc
        have := h1 j hj (by omega)
        omega
      have hres : res ≠ -1 := by
        intro hr
        have := h2 hr j hj hjg
        omega
      obtain ⟨hr0, hrn, hrx, hrg, hmax⟩ := h3 hres
      refine ⟨res.toNat, by omega, hrx, ?_, ?_⟩
      · intro j' hj'res hj' hx'
        by_cases hc : (j' : Int) < g
        · have := hmax j' hj' hc hx'
          omega
        · have := h1 j' hj' (by omega)
          omega
      · rw [htr]
        congr 1
        omega
    · intro hnot
      have hres : res = -1 := by
        by_contra hres
        obtain ⟨hr0, hrn, hrx, -⟩ := h3 hres
        exact hnot (mem_iff_getD.mpr ⟨res.toNat, by omega, hrx⟩)
      rw [htr, hres]

/-! ### Claims C1 and C2 -/

/-- C1: for every sorted integer sequence `S` and key `k`, the terminal step
of `presence(S,k)` carries payload equal to some index `i` with `S[i] == k`
when such an index exists, and payload `-1` when no element equals `k`. -/
theorem claim_C1_presence_correct (arr : List Int) (x : Int)
    (hs : List.Sorted (· ≤ ·) arr) :
    (x ∈ arr → ∃ i : Nat, i < arr.length ∧ arr.getD i 0 = x ∧
        terminalPayload (steps_find_any arr x) = some (i : Int)) ∧
    (x ∉ arr → terminalPayload (steps_find_any arr x) = some (-1)) := by
  unfold steps_find_any
  refine find_any_loop_spec arr x hs 0 ((arr.length : Int) - 1) le_rfl (by omega) ?_
  intro i hi _
  omega

/-- Witness for C1 at `S = [3, 5, 9]`, `k = 9`. -/
theorem claim_C1_presence_correct_witness :
    List.Sorted (· ≤ ·) ([3, 5, 9] : List Int) ∧
    (((9 : Int) ∈ ([3, 5, 9] : List Int) →
        ∃ i : Nat, i < ([3, 5, 9] : List Int).length ∧
          ([3, 5, 9] : List Int).getD i 0 = 9 ∧
          terminalPayload (steps_find_any [3, 5, 9] 9) = some (i : Int)) ∧
      ((9 : Int) ∉ ([3, 5, 9] : List Int) →
        terminalPayload (steps_find_any [3, 5, 9] 9) = some (-1))) :=
  ⟨by decide, claim_C1_presence_correct [3, 5, 9] 9 (by decide)⟩

/-- C2: for every sorted sequence and key, `first_occurrence` terminates with
payload the smallest index holding the key (`-1` when absent), and
`last_occurrence` with the largest such index (`-1` when absent). -/
theorem claim_C2_occurrence_correct (arr : List Int) (x : Int)
    (hs : List.Sorted (· ≤ ·) arr) :
    (x ∈ arr → ∃ i : Nat, i < arr.length ∧ arr.getD i 0 = x ∧
        (∀ j : Nat, j < i → arr.getD j 0 ≠ x) ∧
        terminalPayload (steps_first_occurrence arr x) = some (i : Int)) ∧
    (x ∉ arr → terminalPayload (steps_first_occurrence arr x) = some (-1)) ∧
    (x ∈ arr → ∃ i : Nat, i < arr.length ∧ arr.getD i 0 = x ∧
        (∀ j : Nat, i < j → j < arr.length → arr.getD j 0 ≠ x) ∧
        terminalPayload (steps_last_occurrence arr x) = some (i : Int)) ∧
    (x ∉ arr → terminalPayload (steps_last_occurrence arr x) = some (-1)) := by
  have hfirst := first_occ_loop_spec arr x hs 0 ((arr.length : Int) - 1) (-1)
    le_rfl (by omega) (fun i _ hi => by omega)
    (fun _ i hi hdi => by omega)
    (fun hres => absurd rfl hres)
  have hlast := last_occ_loop_spec arr x hs 0 ((arr.length : Int) - 1) (-1)
    le_rfl (by omega) (fun i hi hdi => by omega)
    (fun _ i _ hi => by omega)
    (fun hres => absurd rfl hres)
  exact ⟨hfirst.1, hfirst.2, hlast.1, hlast.2⟩

/-- Witness for C2 at `S = [3, 9, 9]`, `k = 9`. -/
theorem claim_C2_occurrence_correct_witness :
    List.Sorted (· ≤ ·) ([3, 9, 9] : List Int) ∧
    (((9 : Int) ∈ ([3, 9, 9] : List Int) →
        ∃ i : Nat, i < ([3, 9, 9] : List Int).length ∧
          ([3, 9, 9] : List Int).getD i 0 = 9 ∧
          (∀ j : Nat, j < i → ([3, 9, 9] : List Int).getD j 0 ≠ 9) ∧
          terminalPayload (steps_first_occurrence [3, 9, 9] 9) = some (i : Int)) ∧
      ((9 : Int) ∉ ([3, 9, 9] : List Int) →
        terminalPayload (steps_first_occurrence [3, 9, 9] 9) = some (-1)) ∧
      ((9 : Int) ∈ ([3, 9, 9] : List Int) →
        ∃ i : Nat, i < ([3, 9, 9] : List Int).length ∧
          ([3, 9, 9] : List Int).getD i 0 = 9 ∧
          (∀ j : Nat, i < j → j < ([3, 9, 9] : List Int).length →
            ([3, 9, 9] : List Int).getD j 0 ≠ 9) ∧
          terminalPayload (steps_last_occurrence [3, 9, 9] 9) = some (i : Int)) ∧
      ((9 : Int) ∉ ([3, 9, 9] : List Int) →
        terminalPayload (steps_last_occurrence [3, 9, 9] 9) = some (-1))) :=
  ⟨by decide, claim_C2_occurrence_correct [3, 9, 9] 9 (by decide)⟩

/-! ### Bisect left / right (`steps_bisect_left`, `steps_bisect_right`) -/

/-- Every bisect-left trace is non-`done` loop steps followed by one `done`
step. -/
lemma bisect_left_loop_split (arr : List Int) (x : Int) (g d : Int) :
    ∃ t s, steps_bisect_left_loop arr x g d = t ++ [s] ∧ s.done = true ∧
      (∀ u ∈ t, u.done = false) := by
  induction g, d using steps_bisect_left_loop.induct arr x with
  | case1 g d hgd m v hv ih =>
    obtain ⟨t, s, heq, hdone, hall⟩ := ih
    refine ⟨⟨g, d - 1, m, "<", toString v ++ " < " ++ toString x ++ " → g ← m+1 = " ++
      toString (m + 1) ++ ".", false, none⟩ :: t, s, ?_, hdone, ?_⟩
    · rw [steps_bisect_left_loop]
      simp only [dif_pos hgd, if_pos hv]
      rw [heq]
      rfl
    · intro u hu
      rcases List.mem_cons.mp hu with rfl | hu
      · rfl
      · exact hall u hu
  | case2 g d hgd m v hv ih =>
    obtain ⟨t, s, heq, hdone, hall⟩ := ih
    refine ⟨⟨g, d - 1, m, ">=", toString v ++ " >= " ++ toString x ++ " → d ← m = " ++
      toString m ++ ".", false, none⟩ :: t, s, ?_, hdone, ?_⟩
    · rw [steps_bisect_left_loop]
      simp only [dif_pos hgd, if_neg hv]
      rw [heq]
      rfl
    · intro u hu
      rcases List.mem_cons.mp hu with rfl | hu
      · rfl
      · exact hall u hu
  | case3 g d hgd =>
    refine ⟨[], ⟨g, d - 1, g, "final",
      "Position d\x27insertion (gauche) = " ++ toString g ++ ".", true, some g⟩,
      ?_, rfl, by simp⟩
    rw [steps_bisect_left_loop]
    simp only [dif_neg hgd]
    rfl

lemma bisect_left_loop_ne_nil (arr : List Int) (x : Int) (g d : Int) :
    steps_bisect_left_loop arr x g d ≠ [] := by
  obtain ⟨t, s, heq, -⟩ := bisect_left_loop_split arr x g d
  simp [heq]

/-- Every bisect-right trace is non-`done` loop steps followed by one `done`
step. -/
lemma bisect_right_loop_split (arr : List Int) (x : Int) (g d : Int) :
    ∃ t s, steps_bisect_right_loop arr x g d = t ++ [s] ∧ s.done = true ∧
      (∀ u ∈ t, u.done = false) := by
  induction g, d using steps_bisect_right_loop.induct arr x with
  | case1 g d hgd m v hv ih =>
    obtain ⟨t, s, heq, hdone, hall⟩ := ih
    refine ⟨⟨g, d - 1, m, "<=", toString v ++ " <= " ++ toString x ++ " → g ← m+1 = " ++
      toString (m + 1) ++ ".", false, none⟩ :: t, s, ?_, hdone, ?_⟩
    · rw [steps_bisect_right_loop]
      simp only [dif_pos hgd, if_pos hv]
      rw [heq]
      rfl
    · intro u hu
      rcases List.mem_cons.mp hu with rfl | hu
      · rfl
      · exact hall u hu
  | case2 g d hgd m v hv ih =>
    obtain ⟨t, s, heq, hdone, hall⟩ := ih
    refine ⟨⟨g, d - 1, m, ">", toString v ++ " > " ++ toString x ++ " → d ← m = " ++
      toString m ++ ".", false, none⟩ :: t, s, ?_, hdone, ?_⟩
    · rw [steps_bisect_right_loop]
      simp only [dif_pos hgd, if_neg hv]
      rw [heq]
      rfl
    · intro u hu
      rcases List.mem_cons.mp hu with rfl | hu
      · rfl
      · exact hall u hu
  | case3 g d hgd =>
    refine ⟨[], ⟨g, d - 1, g, "final",
      "Position d\x27insertion (droite) = " ++ toString g ++ ".", true, some g⟩,
      ?_, rfl, by simp⟩
    rw [steps_bisect_right_loop]
    simp only [dif_neg hgd]
    rfl

lemma bisect_right_loop_ne_nil (arr : List Int) (x : Int) (g d : Int) :
    steps_bisect_right_loop arr x g d ≠ [] := by
  obtain ⟨t, s, heq, -⟩ := bisect_right_loop_split arr x g d
  simp [heq]

/-- Invariant-carrying correctness of the bisect-left loop: everything left
of `g` is `< x`, everything from `d` on is `≥ x`, and the loop exits at the
boundary index. -/
lemma bisect_left_loop_spec (arr : List Int) (x : Int) (hs : List.Sorted (· ≤ ·) arr)
    (g d : Int) :
    0 ≤ g → g ≤ d → d ≤ (arr.length : Int) →
    (∀ i : Nat, i < arr.length → (i : Int) < g → arr.getD i 0 < x) →
    (∀ i : Nat, i < arr.length → d ≤ (i : Int) → ¬arr.getD i 0 < x) →
    ∃ r : Int, terminalPayload (steps_bisect_left_loop arr x g d) = some r ∧
      0 ≤ r ∧ r ≤ (arr.length : Int) ∧
      (∀ i : Nat, i < arr.length → ((i : Int) < r ↔ arr.getD i 0 < x)) := by
  induction g, d using steps_bisect_left_loop.induct arr x with
  | case1 g d hgd m v hv ih =>
    intro hg hgd2 hd h1 h2
    have hm := fdiv_mid_bounds (le_of_lt hgd)
    have hmd : m < d := by
      have := fdiv_two (g + d)
      omega
    have h1' : ∀ i : Nat, i < arr.length → (i : Int) < m + 1 → arr.getD i 0 < x := by
      intro i hi him
      have hmono : arr.getD i 0 ≤ arr.getD m.toNat 0 :=
        sorted_getD_mono hs (by omega) (by omega)
      omega
    have hrec := ih (by omega) (by omega) hd h1' h2
    have htr : terminalPayload (steps_bisect_left_loop arr x g d) =
        terminalPayload (steps_bisect_left_loop arr x (m + 1) d) := by
      rw [steps_bisect_left_loop]
      simp only [dif_pos hgd, if_pos hv]
      exact terminalPayload_cons (bisect_left_loop_ne_nil arr x (m + 1) d)
    rw [htr]
    exact hrec
  | case2 g d hgd m v hv ih =>
    intro hg hgd2 hd h1 h2
    have hm := fdiv_mid_bounds (le_of_lt hgd)
    have hmd : m < d := by
      have := fdiv_two (g + d)
      omega
    have h2' : ∀ i : Nat, i < arr.length → m ≤ (i : Int) → ¬arr.getD i 0 < x := by
      intro i hi him
      have hmono : arr.getD m.toNat 0 ≤ arr.getD i 0 :=
        sorted_getD_mono hs (by omega) hi
      omega
    have hrec := ih (by omega) (by omega) (by omega) h1 h2'
    have htr : terminalPayload (steps_bisect_left_loop arr x g d) =
        terminalPayload (steps_bisect_left_loop arr x g m) := by
      rw [steps_bisect_left_loop]
      simp only [dif_pos hgd, if_neg hv]
      exact terminalPayload_cons (bisect_left_loop_ne_nil arr x g m)
    rw [htr]
    exact hrec
  | case3 g d hgd =>
    intro hg hgd2 hd h1 h2
    have hgde : g = d := by omega
    have htr : terminalPayload (steps_bisect_left_loop arr x g d) = some g := by
      rw [steps_bisect_left_loop]
      simp only [dif_neg hgd]
      exact terminalPayload_singleton
    refine ⟨g, htr, hg, by omega, ?_⟩
    intro i hi
    constructor
    · intro hig
      exact h1 i hi hig
    · intro hix
      by_contra hc
      push_neg at hc
      exact h2 i hi (by omega) hix

/-- Invariant-carrying correctness of the bisect-right loop: everything left
of `g` is `≤ x`, everything from `d` on is `> x`. -/
lemma bisect_right_loop_spec (arr : List Int) (x : Int) (hs : List.Sorted (· ≤ ·) arr)
    (g d : Int) :
    0 ≤ g → g ≤ d → d ≤ (arr.length : Int) →
    (∀ i : Nat, i < arr.length → (i : Int) < g → arr.getD i 0 ≤ x) →
    (∀ i : Nat, i < arr.length → d ≤ (i : Int) → ¬arr.getD i 0 ≤ x) →
    ∃ r : Int, terminalPayload (steps_bisect_right_loop arr x g d) = some r ∧
      0 ≤ r ∧ r ≤ (arr.length : Int) ∧
      (∀ i : Nat, i < arr.length → ((i : Int) < r ↔ arr.getD i 0 ≤ x)) := by
  induction g, d using steps_bisect_right_loop.induct arr x with
  | case1 g d hgd m v hv ih =>
    intro hg hgd2 hd h1 h2
    have hm := fdiv_mid_bounds (le_of_lt hgd)
    have hmd : m < d := by
      have := fdiv_two (g + d)
      omega
    have h1' : ∀ i : Nat, i < arr.length → (i : Int) < m + 1 → arr.getD i 0 ≤ x := by
      intro i hi him
      have hmono : arr.getD i 0 ≤ arr.getD m.toNat 0 :=
        sorted_getD_mono hs (by omega) (by omega)
      omega
    have hrec := ih (by omega) (by omega) hd h1' h2
    have htr : terminalPayload (steps_bisect_right_loop arr x g d) =
        terminalPayload (steps_bisect_right_loop arr x (m + 1) d) := by
      rw [steps_bisect_right_loop]
      simp only [dif_pos hgd, if_pos hv]
      exact terminalPayload_cons (bisect_right_loop_ne_nil arr x (m + 1) d)
    rw [htr]
    exact hrec
  | case2 g d hgd m v hv ih =>
    intro hg hgd2 hd h1 h2
    have hm := fdiv_mid_bounds (le_of_lt hgd)
    have hmd : m < d := by
      have := fdiv_two (g + d)
      omega
    have h2' : ∀ i : Nat, i < arr.length → m ≤ (i : Int) → ¬arr.getD i 0 ≤ x := by
      intro i hi him
      have hmono : arr.getD m.toNat 0 ≤ arr.getD i 0 :=
        sorted_getD_mono hs (by omega) hi
      omega
    have hrec := ih (by omega) (by omega) (by omega) h1 h2'
    have htr : terminalPayload (steps_bisect_right_loop arr x g d) =
        terminalPayload (steps_bisect_right_loop arr x g m) := by
      rw [steps_bisect_right_loop]
      simp only [dif_pos hgd, if_neg hv]
      exact terminalPayload_cons (bisect_right_loop_ne_nil arr x g m)
    rw [htr]
    exact hrec
  | case3 g d hgd =>
    intro hg hgd2 hd h1 h2
    have htr : terminalPayload (steps_bisect_right_loop arr x g d) = some g := by
      rw [steps_bisect_right_loop]
      simp only [dif_neg hgd]
      exact terminalPayload_singleton
    refine ⟨g, htr, hg, by omega, ?_⟩
    intro i hi
    constructor
    · intro hig
      exact h1 i hi hig
    · intro hix
      by_contra hc
      push_neg at hc
      exact h2 i hi (by omega) hix

/-- A boolean predicate that holds exactly on the first `g` positions of a
list counts to `g`. -/
lemma countP_eq_of_iff (p : Int → Bool) (l : List Int) :
    ∀ g : Nat, g ≤ l.length →
      (∀ i : Nat, i < l.length → (p (l.getD i 0) = true ↔ i < g)) →
      l.countP p = g := by
  induction l with
  | nil =>
    intro g hg _
    simp only [List.length_nil, Nat.le_zero] at hg
    simp [hg]
  | cons a t ih =>
    intro g hg hiff
    cases g with
    | zero =>
      rw [List.countP_eq_zero]
      intro b hb hpb
      obtain ⟨i, hi, hbi⟩ := mem_iff_getD.mp hb
      have := (hiff i hi).mp (by rw [hbi]; exact hpb)
      omega
    | succ k =>
      have hpa : p a = true := by
        have := (hiff 0 (by simp)).mpr (by omega)
        simpa using this
      rw [List.countP_cons, hpa, if_pos rfl]
      have htk : t.countP p = k := by
        refine ih k (by simpa using hg) ?_
        intro i hi
        have := hiff (i + 1) (by simpa using Nat.succ_lt_succ hi)
        simp only [List.getD_cons_succ] at this
        constructor
        · intro hp
          have := this.mp hp
          omega
        · intro hik
          exact this.mpr (by omega)
      rw [htk]

/-- Splitting `count ≤` as `count <` plus the number of exact matches. -/
lemma countP_le_split (l : List Int) (x : Int) :
    (l.countP fun a => decide (a ≤ x)) =
      (l.countP fun a => decide (a < x)) + l.count x := by
  induction l with
  | nil => rfl
  | cons a t ih =>
    rw [List.countP_cons, List.countP_cons, List.count_cons, ih]
    by_cases h1 : a = x
    · subst h1
      simp
      omega
    · by_cases h2 : a < x
      · simp [h1, h2, le_of_lt h2]
        omega
      · have h3 : ¬a ≤ x := by omega
        simp [h1, h2, h3]

/-- The terminal payload of `bisect_left` on a sorted list is the number of
elements strictly below the key. -/
lemma bisect_left_payload (arr : List Int) (x : Int) (hs : List.Sorted (· ≤ ·) arr) :
    terminalPayload (steps_bisect_left arr x) =
      some ((arr.countP fun a => decide (a < x) : Nat) : Int) := by
  obtain ⟨r, htr, hr0, hrn, hiff⟩ := bisect_left_loop_spec arr x hs 0 (arr.length : Int)
    le_rfl (by omega) le_rfl (fun i hi h => by omega) (fun i hi h => by omega)
  have hcount : arr.countP (fun a => decide (a < x)) = r.toNat := by
    refine countP_eq_of_iff _ arr r.toNat (by omega) ?_
    intro i hi
    rw [decide_eq_true_iff]
    rw [← hiff i hi]
    omega
  unfold steps_bisect_left
  rw [htr, hcount]
  congr 1
  omega

/-- The terminal payload of `bisect_right` on a sorted list is the number of
elements less than or equal to the key. -/
lemma bisect_right_payload (arr : List Int) (x : Int) (hs : List.Sorted (· ≤ ·) arr) :
    terminalPayload (steps_bisect_right arr x) =
      some ((arr.countP fun a => decide (a ≤ x) : Nat) : Int) := by
  obtain ⟨r, htr, hr0, hrn, hiff⟩ := bisect_right_loop_spec arr x hs 0 (arr.length : Int)
    le_rfl (by omega) le_rfl (fun i hi h => by omega) (fun i hi h => by omega)
  have hcount : arr.countP (fun a => decide (a ≤ x)) = r.toNat := by
    refine countP_eq_of_iff _ arr r.toNat (by omega) ?_
    intro i hi
    rw [decide_eq_true_iff]
    rw [← hiff i hi]
    omega
  unfold steps_bisect_right
  rw [htr, hcount]
  congr 1
  omega

/-! ### Claims C3 and C6 -/

/-- C3: for every sorted sequence `S` of length `n` and key `k`, the terminal
payload of `bisect_left` is the number of elements `< k`, the terminal
payload of `bisect_right` is the number of elements `≤ k`, and both lie in
`[0, n]`. -/
theorem claim_C3_bisect_correct (arr : List Int) (x : Int)
    (hs : List.Sorted (· ≤ ·) arr) :
    ∃ bl br : Int,
      terminalPayload (steps_bisect_left arr x) = some bl ∧
      terminalPayload (steps_bisect_right arr x) = some br ∧
      bl = ((arr.countP fun a => decide (a < x) : Nat) : Int) ∧
      br = ((arr.countP fun a => decide (a ≤ x) : Nat) : Int) ∧
      0 ≤ bl ∧ bl ≤ (arr.length : Int) ∧ 0 ≤ br ∧ br ≤ (arr.length : Int) := by
  have hlt := List.countP_le_length (p := fun a => decide (a < x)) (l := arr)
  have hle := List.countP_le_length (p := fun a => decide (a ≤ x)) (l := arr)
  exact ⟨_, _, bisect_left_payload arr x hs, bisect_right_payload arr x hs,
    rfl, rfl, by omega, by omega, by omega, by omega⟩

/-- Witness for C3 at `S = [3, 5, 9]`, `k = 5`. -/
theorem claim_C3_bisect_correct_witness :
    List.Sorted (· ≤ ·) ([3, 5, 9] : List Int) ∧
    (∃ bl br : Int,
      terminalPayload (steps_bisect_left [3, 5, 9] 5) = some bl ∧
      terminalPayload (steps_bisect_right [3, 5, 9] 5) = some br ∧
      bl = ((([3, 5, 9] : List Int).countP fun a => decide (a < 5) : Nat) : Int) ∧
      br = ((([3, 5, 9] : List Int).countP fun a => decide (a ≤ 5) : Nat) : Int) ∧
      0 ≤ bl ∧ bl ≤ (([3, 5, 9] : List Int).length : Int) ∧
      0 ≤ br ∧ br ≤ (([3, 5, 9] : List Int).length : Int)) :=
  ⟨by decide, claim_C3_bisect_correct [3, 5, 9] 5 (by decide)⟩

/-- C6: for every sorted sequence and key, `bisect_left ≤ bisect_right`, with
equality exactly when the key does not occur. -/
theorem claim_C6_bisect_ordering (arr : List Int) (x : Int)
    (hs : List.Sorted (· ≤ ·) arr) :
    ∃ bl br : Int,
      terminalPayload (steps_bisect_left arr x) = some bl ∧
      terminalPayload (steps_bisect_right arr x) = some br ∧
      bl ≤ br ∧ (bl = br ↔ x ∉ arr) := by
  have hsplit := countP_le_split arr x
  have hcz := List.count_eq_zero (a := x) (l := arr)
  refine ⟨_, _, bisect_left_payload arr x hs, bisect_right_payload arr x hs, ?_, ?_⟩
  · omega
  · constructor
    · intro h
      exact hcz.mp (by omega)
    · intro h
      have := hcz.mpr h
      omega

/-- Witness for C6 at `S = [3, 5, 9]`, `k = 4`. -/
theorem claim_C6_bisect_ordering_witness :
    List.Sorted (· ≤ ·) ([3, 5, 9] : List Int) ∧
    (∃ bl br : Int,
      terminalPayload (steps_bisect_left [3, 5, 9] 4) = some bl ∧
      terminalPayload (steps_bisect_right [3, 5, 9] 4) = some br ∧
      bl ≤ br ∧ (bl = br ↔ (4 : Int) ∉ ([3, 5, 9] : List Int))) :=
  ⟨by decide, claim_C6_bisect_ordering [3, 5, 9] 4 (by decide)⟩

/-! ### Claim C7: `count_occurrences` -/

lemma run_steps_result_first (arr : List Int) (x : Int) :
    run_steps_result (steps_first_occurrence arr x) =
      terminalPayload (steps_first_occurrence arr x) := by
  obtain ⟨t, s, heq, hdone, hall⟩ :=
    first_occ_loop_split arr x 0 ((arr.length : Int) - 1) (-1)
  unfold steps_first_occurrence
  rw [heq, run_steps_result_eq t s hall hdone, terminalPayload_append]

lemma run_steps_result_last (arr : List Int) (x : Int) :
    run_steps_result (steps_last_occurrence arr x) =
      terminalPayload (steps_last_occurrence arr x) := by
  obtain ⟨t, s, heq, hdone, hall⟩ :=
    last_occ_loop_split arr x 0 ((arr.length : Int) - 1) (-1)
  unfold steps_last_occurrence
  rw [heq, run_steps_result_eq t s hall hdone, terminalPayload_append]

/-- In a sorted list the number of elements `< x` equals the least index of
an occurrence of `x`. -/
lemma countP_lt_of_min_occ (arr : List Int) (x : Int) (hs : List.Sorted (· ≤ ·) arr)
    {f : Nat} (hf : f < arr.length) (hfx : arr.getD f 0 = x)
    (hmin : ∀ j : Nat, j < f → arr.getD j 0 ≠ x) :
    arr.countP (fun a => decide (a < x)) = f := by
  refine countP_eq_of_iff _ arr f (by omega) ?_
  intro i hi
  rw [decide_eq_true_iff]
  constructor
  · intro hlt
    by_contra hc
    push_neg at hc
    have := sorted_getD_mono hs hc hi
    omega
  · intro hif
    have h1 := sorted_getD_mono hs (le_of_lt hif) hf
    have h2 := hmin i hif
    omega

/-- In a sorted list the number of elements `≤ x` equals the greatest index
of an occurrence of `x`, plus one. -/
lemma countP_le_of_max_occ (arr : List Int) (x : Int) (hs : List.Sorted (· ≤ ·) arr)
    {l : Nat} (hl : l < arr.length) (hlx : arr.getD l 0 = x)
    (hmax : ∀ j : Nat, l < j → j < arr.length → arr.getD j 0 ≠ x) :
    arr.countP (fun a => decide (a ≤ x)) = l + 1 := by
  refine countP_eq_of_iff _ arr (l + 1) (by omega) ?_
  intro i hi
  rw [decide_eq_true_iff]
  constructor
  · intro hle
    by_contra hc
    push_neg at hc
    have h1 := sorted_getD_mono hs (show l ≤ i by omega) hi
    have h2 := hmax i (by omega) hi
    omega
  · intro hil
    have := sorted_getD_mono hs (show i ≤ l by omega) hl
    omega

/-- C7: for every sorted sequence and key, the count reported by
`count_occurrences` equals `bisect_right - bisect_left`, and when the key is
absent the reported range is `[-1, -1]`. -/
theorem claim_C7_count_identity (arr : List Int) (x : Int)
    (hs : List.Sorted (· ≤ ·) arr) :
    ∃ bl br : Int,
      terminalPayload (steps_bisect_left arr x) = some bl ∧
      terminalPayload (steps_bisect_right arr x) = some br ∧
      (run_count_occurrences arr x).1 = br - bl ∧
      (x ∉ arr → (run_count_occurrences arr x).2 = (some (-1), some (-1))) := by
  have hfirst := first_occ_loop_spec arr x hs 0 ((arr.length : Int) - 1) (-1)
    le_rfl (by omega) (fun i _ hi => by omega)
    (fun _ i hi hdi => by omega)
    (fun hres => absurd rfl hres)
  have hlast := last_occ_loop_spec arr x hs 0 ((arr.length : Int) - 1) (-1)
    le_rfl (by omega) (fun i hi hdi => by omega)
    (fun _ i _ hi => by omega)
    (fun hres => absurd rfl hres)
  have key : (run_count_occurrences arr x).1 =
      ((arr.countP fun a => decide (a ≤ x) : Nat) : Int) -
        ((arr.countP fun a => decide (a < x) : Nat) : Int) ∧
      (x ∉ arr → (run_count_occurrences arr x).2 = (some (-1), some (-1))) := by
    by_cases hmem : x ∈ arr
    · obtain ⟨f, hf, hfx, hfmin, hfpay⟩ := hfirst.1 hmem
      obtain ⟨l, hl, hlx, hlmax, hlpay⟩ := hlast.1 hmem
      have hfl : f ≤ l := by
        by_contra hc
        push_neg at hc
        exact hfmin l hc hlx
      have hbl := countP_lt_of_min_occ arr x hs hf hfx hfmin
      have hbr := countP_le_of_max_occ arr x hs hl hlx hlmax
      have hrunf : run_steps_result (steps_first_occurrence arr x) = some (f : Int) := by
        rw [run_steps_result_first]
        exact hfpay
      have hrunl : run_steps_result (steps_last_occurrence arr x) = some (l : Int) := by
        rw [run_steps_result_last]
        exact hlpay
      have hrc : run_count_occurrences arr x =
          ((l : Int) - (f : Int) + 1, some (f : Int), some (l : Int)) := by
        unfold run_count_occurrences
        rw [hrunf, hrunl]
        simp only []
        rw [if_neg (show ¬((f : Int) = -1) by omega),
          if_neg (show ¬((l : Int) < (f : Int)) by omega)]
      refine ⟨?_, fun hnot => absurd hmem hnot⟩
      rw [hrc]
      simp only []
      omega
    · have hfpay := hfirst.2 hmem
      have hlpay := hlast.2 hmem
      have hrunf : run_steps_result (steps_first_occurrence arr x) = some (-1) := by
        rw [run_steps_result_first]
        exact hfpay
      have hrunl : run_steps_result (steps_last_occurrence arr x) = some (-1) := by
        rw [run_steps_result_last]
        exact hlpay
      have hrc : run_count_occurrences arr x = (0, some (-1), some (-1)) := by
        unfold run_count_occurrences
        rw [hrunf, hrunl]
        simp
      have hsplit := countP_le_split arr x
      have hcz := List.count_eq_zero.mpr hmem
      refine ⟨?_, fun _ => by rw [hrc]⟩
      rw [hrc]
      simp only []
      omega
  exact ⟨_, _, bisect_left_payload arr x hs, bisect_right_payload arr x hs,
    key.1, key.2⟩

/-- Witness for C7 at `S = [3, 9, 9]`, `k = 9`. -/
theorem claim_C7_count_identity_witness :
    List.Sorted (· ≤ ·) ([3, 9, 9] : List Int) ∧
    (∃ bl br : Int,
      terminalPayload (steps_bisect_left [3, 9, 9] 9) = some bl ∧
      terminalPayload (steps_bisect_right [3, 9, 9] 9) = some br ∧
      (run_count_occurrences [3, 9, 9] 9).1 = br - bl ∧
      ((9 : Int) ∉ ([3, 9, 9] : List Int) →
        (run_count_occurrences [3, 9, 9] 9).2 = (some (-1), some (-1)))) :=
  ⟨by decide, claim_C7_count_identity [3, 9, 9] 9 (by decide)⟩

/-! ### Length bounds (claim C4) -/

lemma logBound_pos (s : Nat) : 1 ≤ logBound s := by
  unfold logBound
  split <;> omega

lemma find_any_loop_length (arr : List Int) (x : Int) (g d : Int) :
    (steps_find_any_loop arr x g d).length ≤ logBound (d + 1 - g).toNat := by
  induction g, d using steps_find_any_loop.induct arr x with
  | case1 g d hgd m v hv =>
    rw [steps_find_any_loop]
    simp only [dif_pos hgd, if_pos hv, List.length_singleton]
    exact logBound_pos _
  | case2 g d hgd m v hne hlt ih =>
    rw [steps_find_any_loop]
    simp only [dif_pos hgd, if_neg hne, if_pos hlt, List.length_cons]
    show (steps_find_any_loop arr x (m + 1) d).length + 1 ≤ logBound (d + 1 - g).toNat
    have hm := fdiv_mid_bounds hgd
    have hf := fdiv_two (g + d)
    have hstep : logBound (d + 1 - (m + 1)).toNat + 1 ≤ logBound (d + 1 - g).toNat :=
      logBound_le (by omega) (by omega)
    omega
  | case3 g d hgd m v hne hnlt ih =>
    rw [steps_find_any_loop]
    simp only [dif_pos hgd, if_neg hne, if_neg hnlt, List.length_cons]
    show (steps_find_any_loop arr x g (m - 1)).length + 1 ≤ logBound (d + 1 - g).toNat
    have hm := fdiv_mid_bounds hgd
    have hf := fdiv_two (g + d)
    have hstep : logBound ((m - 1) + 1 - g).toNat + 1 ≤ logBound (d + 1 - g).toNat :=
      logBound_le (by omega) (by omega)
    omega
  | case4 g d hgd =>
    rw [steps_find_any_loop]
    simp only [dif_neg hgd, List.length_singleton]
    exact logBound_pos _

lemma first_occ_loop_length (arr : List Int) (x : Int) (g d res : Int) :
    (steps_first_occurrence_loop arr x g d res).length ≤ logBound (d + 1 - g).toNat := by
  induction g, d, res using steps_first_occurrence_loop.induct arr x with
  | case1 g d res hgd m v hge hv ih =>
    rw [steps_first_occurrence_loop]
    simp only [dif_pos hgd, if_pos hge, if_pos hv, List.length_cons]
    show (steps_first_occurrence_loop arr x g (m - 1) m).length + 1 ≤
      logBound (d + 1 - g).toNat
    have hm := fdiv_mid_bounds hgd
    have hf := fdiv_two (g + d)
    have hstep : logBound ((m - 1) + 1 - g).toNat + 1 ≤ logBound (d + 1 - g).toNat :=
      logBound_le (by omega) (by omega)
    omega
  | case2 g d res hgd m v hge hv ih =>
    rw [steps_first_occurrence_loop]
    simp only [dif_pos hgd, if_pos hge, if_neg hv, List.length_cons]
    show (steps_first_occurrence_loop arr x g (m - 1) res).length + 1 ≤
      logBound (d + 1 - g).toNat
    have hm := fdiv_mid_bounds hgd
    have hf := fdiv_two (g + d)
    have hstep : logBound ((m - 1) + 1 - g).toNat + 1 ≤ logBound (d + 1 - g).toNat :=
      logBound_le (by omega) (by omega)
    omega
  | case3 g d res hgd m v hge ih =>
    rw [steps_first_occurrence_loop]
    simp only [dif_pos hgd, if_neg hge, List.length_cons]
    show (steps_first_occurrence_loop arr x (m + 1) d res).length + 1 ≤
      logBound (d + 1 - g).toNat
    have hm := fdiv_mid_bounds hgd
    have hf := fdiv_two (g + d)
    have hstep : logBound (d + 1 - (m + 1)).toNat + 1 ≤ logBound (d + 1 - g).toNat :=
      logBound_le (by omega) (by omega)
    omega
  | case4 g d res hgd =>
    rw [steps_first_occurrence_loop]
    simp only [dif_neg hgd, List.length_singleton]
    exact logBound_pos _

lemma last_occ_loop_length (arr : List Int) (x : Int) (g d res : Int) :
    (steps_last_occurrence_loop arr x g d res).length ≤ logBound (d + 1 - g).toNat := by
  induction g, d, res using steps_last_occurrence_loop.induct arr x with
  | case1 g d res hgd m v hle hv ih =>
    rw [steps_last_occurrence_loop]
    simp only [dif_pos hgd, if_pos hle, if_pos hv, List.length_cons]
    show (steps_last_occurrence_loop arr x (m + 1) d m).length + 1 ≤
      logBound (d + 1 - g).toNat
    have hm := fdiv_mid_bounds hgd
    have hf := fdiv_two (g + d)
    have hstep : logBound (d + 1 - (m + 1)).toNat + 1 ≤ logBound (d + 1 - g).toNat :=
      logBound_le (by omega) (by omega)
    omega
  | case2 g d res hgd m v hle hv ih =>
    rw [steps_last_occurrence_loop]
    simp only [dif_pos hgd, if_pos hle, if_neg hv, List.length_cons]
    show (steps_last_occurrence_loop arr x (m + 1) d res).length + 1 ≤
      logBound (d + 1 - g).toNat
    have hm := fdiv_mid_bounds hgd
    have hf := fdiv_two (g + d)
    have hstep : logBound (d + 1 - (m + 1)).toNat + 1 ≤ logBound (d + 1 - g).toNat :=
      logBound_le (by omega) (by omega)
    omega
  | case3 g d res hgd m v hle ih =>
    rw [steps_last_occurrence_loop]
    simp only [dif_pos hgd, if_neg hle, List.length_cons]
    show (steps_last_occurrence_loop arr x g (m - 1) res).length + 1 ≤
      logBound (d + 1 - g).toNat
    have hm := fdiv_mid_bounds hgd
    have hf := fdiv_two (g + d)
    have hstep : logBound ((m - 1) + 1 - g).toNat + 1 ≤ logBound (d + 1 - g).toNat :=
      logBound_le (by omega) (by omega)
    omega
  | case4 g d res hgd =>
    rw [steps_last_occurrence_loop]
    simp only [dif_neg hgd, List.length_singleton]
    exact logBound_pos _

lemma bisect_left_loop_length (arr : List Int) (x : Int) (g d : Int) :
    (steps_bisect_left_loop arr x g d).length ≤ logBound (d - g).toNat := by
  induction g, d using steps_bisect_left_loop.induct arr x with
  | case1 g d hgd m v hv ih =>
    rw [steps_bisect_left_loop]
    simp only [dif_pos hgd, if_pos hv, List.length_cons]
    show (steps_bisect_left_loop arr x (m + 1) d).length + 1 ≤ logBound (d - g).toNat
    have hm := fdiv_mid_bounds (le_of_lt hgd)
    have hf := fdiv_two (g + d)
    have hstep : logBound (d - (m + 1)).toNat + 1 ≤ logBound (d - g).toNat :=
      logBound_le (by omega) (by omega)
    omega
  | case2 g d hgd m v hv ih =>
    rw [steps_bisect_left_loop]
    simp only [dif_pos hgd, if_neg hv, List.length_cons]
    show (steps_bisect_left_loop arr x g m).length + 1 ≤ logBound (d - g).toNat
    have hm := fdiv_mid_bounds (le_of_lt hgd)
    have hf := fdiv_two (g + d)
    have hstep : logBound (m - g).toNat + 1 ≤ logBound (d - g).toNat :=
      logBound_le (by omega) (by omega)
    omega
  | case3 g d hgd =>
    rw [steps_bisect_left_loop]
    simp only [dif_neg hgd, List.length_singleton]
    exact logBound_pos _

lemma bisect_right_loop_length (arr : List Int) (x : Int) (g d : Int) :
    (steps_bisect_right_loop arr x g d).length ≤ logBound (d - g).toNat := by
  induction g, d using steps_bisect_right_loop.induct arr x with
  | case1 g d hgd m v hv ih =>
    rw [steps_bisect_right_loop]
    simp only [dif_pos hgd, if_pos hv, List.length_cons]
    show (steps_bisect_right_loop arr x (m + 1) d).length + 1 ≤ logBound (d - g).toNat
    have hm := fdiv_mid_bounds (le_of_lt hgd)
    have hf := fdiv_two (g + d)
    have hstep : logBound (d - (m + 1)).toNat + 1 ≤ logBound (d - g).toNat :=
      logBound_le (by omega) (by omega)
    omega
  | case2 g d hgd m v hv ih =>
    rw [steps_bisect_right_loop]
    simp only [dif_pos hgd, if_neg hv, List.length_cons]
    show (steps_bisect_right_loop arr x g m).length + 1 ≤ logBound (d - g).toNat
    have hm := fdiv_mid_bounds (le_of_lt hgd)
    have hf := fdiv_two (g + d)
    have hstep : logBound (m - g).toNat + 1 ≤ logBound (d - g).toNat :=
      logBound_le (by omega) (by omega)
    omega
  | case3 g d hgd =>
    rw [steps_bisect_right_loop]
    simp only [dif_neg hgd, List.length_singleton]
    exact logBound_pos _

/-! ### Strict interval shrinking (claim C4) -/

/-- In a presence trace the displayed interval `right - left` strictly
shrinks from each step to the next; the head step displays the current
bounds. -/
lemma find_any_loop_chain (arr : List Int) (x : Int) (g d : Int) :
    List.Chain' (fun a b : Step => b.right - b.left < a.right - a.left)
      (steps_find_any_loop arr x g d) ∧
    (∀ s, (steps_find_any_loop arr x g d).head? = some s → s.left = g ∧ s.right = d) := by
  induction g, d using steps_find_any_loop.induct arr x with
  | case1 g d hgd m v hv =>
    rw [steps_find_any_loop]
    simp only [dif_pos hgd, if_pos hv]
    refine ⟨List.chain'_singleton _, ?_⟩
    intro s hs
    simp only [List.head?_cons, Option.some.injEq] at hs
    subst hs
    exact ⟨rfl, rfl⟩
  | case2 g d hgd m v hne hlt ih =>
    rw [steps_find_any_loop]
    simp only [dif_pos hgd, if_neg hne, if_pos hlt]
    constructor
    · rw [List.chain'_cons']
      refine ⟨?_, ih.1⟩
      intro b hb
      have hbb := ih.2 b (Option.mem_def.mp hb)
      have hm := fdiv_mid_bounds hgd
      show b.right - b.left < d - g
      omega
    · intro s hs
      simp only [List.head?_cons, Option.some.injEq] at hs
      subst hs
      exact ⟨rfl, rfl⟩
  | case3 g d hgd m v hne hnlt ih =>
    rw [steps_find_any_loop]
    simp only [dif_pos hgd, if_neg hne, if_neg hnlt]
    constructor
    · rw [List.chain'_cons']
      refine ⟨?_, ih.1⟩
      intro b hb
      have hbb := ih.2 b (Option.mem_def.mp hb)
      have hm := fdiv_mid_bounds hgd
      show b.right - b.left < d - g
      omega
    · intro s hs
      simp only [List.head?_cons, Option.some.injEq] at hs
      subst hs
      exact ⟨rfl, rfl⟩
  | case4 g d hgd =>
    rw [steps_find_any_loop]
    simp only [dif_neg hgd]
    refine ⟨List.chain'_singleton _, ?_⟩
    intro s hs
    simp only [List.head?_cons, Option.some.injEq] at hs
    subst hs
    exact ⟨rfl, rfl⟩

/-- Strict interval shrinking for first-occurrence traces. -/
lemma first_occ_loop_chain (arr : List Int) (x : Int) (g d res : Int) :
    List.Chain' (fun a b : Step => b.right - b.left < a.right - a.left)
      (steps_first_occurrence_loop arr x g d res) ∧
    (∀ s, (steps_first_occurrence_loop arr x g d res).head? = some s →
      s.left = g ∧ s.right = d) := by
  induction g, d, res using steps_first_occurrence_loop.induct arr x with
  | case1 g d res hgd m v hge hv ih =>
    rw [steps_first_occurrence_loop]
    simp only [dif_pos hgd, if_pos hge, if_pos hv]
    constructor
    · rw [List.chain'_cons']
      refine ⟨?_, ih.1⟩
      intro b hb
      have hbb := ih.2 b (Option.mem_def.mp hb)
      have hm := fdiv_mid_bounds hgd
      show b.right - b.left < d - g
      omega
    · intro s hs
      simp only [List.head?_cons, Option.some.injEq] at hs
      subst hs
      exact ⟨rfl, rfl⟩
  | case2 g d res hgd m v hge hv ih =>
    rw [steps_first_occurrence_loop]
    simp only [dif_pos hgd, if_pos hge, if_neg hv]
    constructor
    · rw [List.chain'_cons']
      refine ⟨?_, ih.1⟩
      intro b hb
      have hbb := ih.2 b (Option.mem_def.mp hb)
      have hm := fdiv_mid_bounds hgd
      show b.right - b.left < d - g
      omega
    · intro s hs
      simp only [List.head?_cons, Option.some.injEq] at hs
      subst hs
      exact ⟨rfl, rfl⟩
  | case3 g d res hgd m v hge ih =>
    rw [steps_first_occurrence_loop]
    simp only [dif_pos hgd, if_neg hge]
    constructor
    · rw [List.chain'_cons']
      refine ⟨?_, ih.1⟩
      intro b hb
      have hbb := ih.2 b (Option.mem_def.mp hb)
      have hm := fdiv_mid_bounds hgd
      show b.right - b.left < d - g
      omega
    · intro s hs
      simp only [List.head?_cons, Option.some.injEq] at hs
      subst hs
      exact ⟨rfl, rfl⟩
  | case4 g d res hgd =>
    rw [steps_first_occurrence_loop]
    simp only [dif_neg hgd]
    refine ⟨List.chain'_singleton _, ?_⟩
    intro s hs
    simp only [List.head?_cons, Option.some.injEq] at hs
    subst hs
    exact ⟨rfl, rfl⟩

/-- Strict interval shrinking for last-occurrence traces. -/
lemma last_occ_loop_chain (arr : List Int) (x : Int) (g d res : Int) :
    List.Chain' (fun a b : Step => b.right - b.left < a.right - a.left)
      (steps_last_occurrence_loop arr x g d res) ∧
    (∀ s, (steps_last_occurrence_loop arr x g d res).head? = some s →
      s.left = g ∧ s.right = d) := by
  induction g, d, res using steps_last_occurrence_loop.induct arr x with
  | case1 g d res hgd m v hle hv ih =>
    rw [steps_last_occurrence_loop]
    simp only [dif_pos hgd, if_pos hle, if_pos hv]
    constructor
    · rw [List.chain'_cons']
      refine ⟨?_, ih.1⟩
      intro b hb
      have hbb := ih.2 b (Option.mem_def.mp hb)
      have hm := fdiv_mid_bounds hgd
      show b.right - b.left < d - g
      omega
    · intro s hs
      simp only [List.head?_cons, Option.some.injEq] at hs
      subst hs
      exact ⟨rfl, rfl⟩
  | case2 g d res hgd m v hle hv ih =>
    rw [steps_last_occurrence_loop]
    simp only [dif_pos hgd, if_pos hle, if_neg hv]
    constructor
    · rw [List.chain'_cons']
      refine ⟨?_, ih.1⟩
      intro b hb
      have hbb := ih.2 b (Option.mem_def.mp hb)
      have hm := fdiv_mid_bounds hgd
      show b.right - b.left < d - g
      omega
    · intro s hs
      simp only [List.head?_cons, Option.some.injEq] at hs
      subst hs
      exact ⟨rfl, rfl⟩
  | case3 g d res hgd m v hle ih =>
    rw [steps_last_occurrence_loop]
    simp only [dif_pos hgd, if_neg hle]
    constructor
    · rw [List.chain'_cons']
      refine ⟨?_, ih.1⟩
      intro b hb
      have hbb := ih.2 b (Option.mem_def.mp hb)
      have hm := fdiv_mid_bounds hgd
      show b.right - b.left < d - g
      omega
    · intro s hs
      simp only [List.head?_cons, Option.some.injEq] at hs
      subst hs
      exact ⟨rfl, rfl⟩
  | case4 g d res hgd =>
    rw [steps_last_occurrence_loop]
    simp only [dif_neg hgd]
    refine ⟨List.chain'_singleton _, ?_⟩
    intro s hs
    simp only [List.head?_cons, Option.some.injEq] at hs
    subst hs
    exact ⟨rfl, rfl⟩

/-- Strict interval shrinking for bisect-left traces (steps display
`(g, d-1)`). -/
lemma bisect_left_loop_chain (arr : List Int) (x : Int) (g d : Int) :
    List.Chain' (fun a b : Step => b.right - b.left < a.right - a.left)
      (steps_bisect_left_loop arr x g d) ∧
    (∀ s, (steps_bisect_left_loop arr x g d).head? = some s →
      s.left = g ∧ s.right = d - 1) := by
  induction g, d using steps_bisect_left_loop.induct arr x with
  | case1 g d hgd m v hv ih =>
    rw [steps_bisect_left_loop]
    simp only [dif_pos hgd, if_pos hv]
    constructor
    · rw [List.chain'_cons']
      refine ⟨?_, ih.1⟩
      intro b hb
      have hbb := ih.2 b (Option.mem_def.mp hb)
      have hm := fdiv_mid_bounds (le_of_lt hgd)
      show b.right - b.left < (d - 1) - g
      omega
    · intro s hs
      simp only [List.head?_cons, Option.some.injEq] at hs
      subst hs
      exact ⟨rfl, rfl⟩
  | case2 g d hgd m v hv ih =>
    rw [steps_bisect_left_loop]
    simp only [dif_pos hgd, if_neg hv]
    constructor
    · rw [List.chain'_cons']
      refine ⟨?_, ih.1⟩
      intro b hb
      have hbb := ih.2 b (Option.mem_def.mp hb)
      have hm := fdiv_mid_bounds (le_of_lt hgd)
      have hmd : m < d := by
        have := fdiv_two (g + d)
        omega
      show b.right - b.left < (d - 1) - g
      omega
    · intro s hs
      simp only [List.head?_cons, Option.some.injEq] at hs
      subst hs
      exact ⟨rfl, rfl⟩
  | case3 g d hgd =>
    rw [steps_bisect_left_loop]
    simp only [dif_neg hgd]
    refine ⟨List.chain'_singleton _, ?_⟩
    intro s hs
    simp only [List.head?_cons, Option.some.injEq] at hs
    subst hs
    exact ⟨rfl, rfl⟩

/-- Strict interval shrinking for bisect-right traces. -/
lemma bisect_right_loop_chain (arr : List Int) (x : Int) (g d : Int) :
    List.Chain' (fun a b : Step => b.right - b.left < a.right - a.left)
      (steps_bisect_right_loop arr x g d) ∧
    (∀ s, (steps_bisect_right_loop arr x g d).head? = some s →
      s.left = g ∧ s.right = d - 1) := by
  induction g, d using steps_bisect_right_loop.induct arr x with
  | case1 g d hgd m v hv ih =>
    rw [steps_bisect_right_loop]
    simp only [dif_pos hgd, if_pos hv]
    constructor
    · rw [List.chain'_cons']
      refine ⟨?_, ih.1⟩
      intro b hb
      have hbb := ih.2 b (Option.mem_def.mp hb)
      have hm := fdiv_mid_bounds (le_of_lt hgd)
      show b.right - b.left < (d - 1) - g
      omega
    · intro s hs
      simp only [List.head?_cons, Option.some.injEq] at hs
      subst hs
      exact ⟨rfl, rfl⟩
  | case2 g d hgd m v hv ih =>
    rw [steps_bisect_right_loop]
    simp only [dif_pos hgd, if_neg hv]
    constructor
    · rw [List.chain'_cons']
      refine ⟨?_, ih.1⟩
      intro b hb
      have hbb := ih.2 b (Option.mem_def.mp hb)
      have hm := fdiv_mid_bounds (le_of_lt hgd)
      have hmd : m < d := by
        have := fdiv_two (g + d)
        omega
      show b.right - b.left < (d - 1) - g
      omega
    · intro s hs
      simp only [List.head?_cons, Option.some.injEq] at hs
      subst hs
      exact ⟨rfl, rfl⟩
  | case3 g d hgd =>
    rw [steps_bisect_right_loop]
    simp only [dif_neg hgd]
    refine ⟨List.chain'_singleton _, ?_⟩
    intro s hs
    simp only [List.head?_cons, Option.some.injEq] at hs
    subst hs
    exact ⟨rfl, rfl⟩

/-! ### Claims C4 and C5 -/

/-- C4: for every sorted sequence of length `n` and key, each of the five
generators yields a finite trace of length at most `log2 n + 2`
(`O(log n) + 1`), and along each trace the displayed search interval
`right - left` strictly decreases at every step. -/
theorem claim_C4_termination_log (arr : List Int) (x : Int)
    (hs : List.Sorted (· ≤ ·) arr) :
    ((steps_find_any arr x).length ≤ Nat.log2 arr.length + 2 ∧
      List.Chain' (fun a b : Step => b.right - b.left < a.right - a.left)
        (steps_find_any arr x)) ∧
    ((steps_first_occurrence arr x).length ≤ Nat.log2 arr.length + 2 ∧
      List.Chain' (fun a b : Step => b.right - b.left < a.right - a.left)
        (steps_first_occurrence arr x)) ∧
    ((steps_last_occurrence arr x).length ≤ Nat.log2 arr.length + 2 ∧
      List.Chain' (fun a b : Step => b.right - b.left < a.right - a.left)
        (steps_last_occurrence arr x)) ∧
    ((steps_bisect_left arr x).length ≤ Nat.log2 arr.length + 2 ∧
      List.Chain' (fun a b : Step => b.right - b.left < a.right - a.left)
        (steps_bisect_left arr x)) ∧
    ((steps_bisect_right arr x).length ≤ Nat.log2 arr.length + 2 ∧
      List.Chain' (fun a b : Step => b.right - b.left < a.right - a.left)
        (steps_bisect_right arr x)) := by
  have hlb := logBound_le_log2 arr.length
  have hargc : (((arr.length : Int) - 1) + 1 - 0).toNat = arr.length := by omega
  have hargo : ((arr.length : Int) - 0).toNat = arr.length := by omega
  refine ⟨⟨?_, (find_any_loop_chain arr x 0 ((arr.length : Int) - 1)).1⟩,
    ⟨?_, (first_occ_loop_chain arr x 0 ((arr.length : Int) - 1) (-1)).1⟩,
    ⟨?_, (last_occ_loop_chain arr x 0 ((arr.length : Int) - 1) (-1)).1⟩,
    ⟨?_, (bisect_left_loop_chain arr x 0 (arr.length : Int)).1⟩,
    ⟨?_, (bisect_right_loop_chain arr x 0 (arr.length : Int)).1⟩⟩
  · show (steps_find_any_loop arr x 0 ((arr.length : Int) - 1)).length ≤
      Nat.log2 arr.length + 2
    have h := find_any_loop_length arr x 0 ((arr.length : Int) - 1)
    rw [hargc] at h
    omega
  · show (steps_first_occurrence_loop arr x 0 ((arr.length : Int) - 1) (-1)).length ≤
      Nat.log2 arr.length + 2
    have h := first_occ_loop_length arr x 0 ((arr.length : Int) - 1) (-1)
    rw [hargc] at h
    omega
  · show (steps_last_occurrence_loop arr x 0 ((arr.length : Int) - 1) (-1)).length ≤
      Nat.log2 arr.length + 2
    have h := last_occ_loop_length arr x 0 ((arr.length : Int) - 1) (-1)
    rw [hargc] at h
    omega
  · show (steps_bisect_left_loop arr x 0 (arr.length : Int)).length ≤
      Nat.log2 arr.length + 2
    have h := bisect_left_loop_length arr x 0 (arr.length : Int)
    rw [hargo] at h
    omega
  · show (steps_bisect_right_loop arr x 0 (arr.length : Int)).length ≤
      Nat.log2 arr.length + 2
    have h := bisect_right_loop_length arr x 0 (arr.length : Int)
    rw [hargo] at h
    omega

/-- Witness for C4 at `S = [3, 5, 9]`, `k = 9`. -/
theorem claim_C4_termination_log_witness :
    List.Sorted (· ≤ ·) ([3, 5, 9] : List Int) ∧
    (((steps_find_any [3, 5, 9] 9).length ≤ Nat.log2 ([3, 5, 9] : List Int).length + 2 ∧
      List.Chain' (fun a b : Step => b.right - b.left < a.right - a.left)
        (steps_find_any [3, 5, 9] 9)) ∧
    ((steps_first_occurrence [3, 5, 9] 9).length ≤
        Nat.log2 ([3, 5, 9] : List Int).length + 2 ∧
      List.Chain' (fun a b : Step => b.right - b.left < a.right - a.left)
        (steps_first_occurrence [3, 5, 9] 9)) ∧
    ((steps_last_occurrence [3, 5, 9] 9).length ≤
        Nat.log2 ([3, 5, 9] : List Int).length + 2 ∧
      List.Chain' (fun a b : Step => b.right - b.left < a.right - a.left)
        (steps_last_occurrence [3, 5, 9] 9)) ∧
    ((steps_bisect_left [3, 5, 9] 9).length ≤
        Nat.log2 ([3, 5, 9] : List Int).length + 2 ∧
      List.Chain' (fun a b : Step => b.right - b.left < a.right - a.left)
        (steps_bisect_left [3, 5, 9] 9)) ∧
    ((steps_bisect_right [3, 5, 9] 9).length ≤
        Nat.log2 ([3, 5, 9] : List Int).length + 2 ∧
      List.Chain' (fun a b : Step => b.right - b.left < a.right - a.left)
        (steps_bisect_right [3, 5, 9] 9))) :=
  ⟨by decide, claim_C4_termination_log [3, 5, 9] 9 (by decide)⟩

/-- C5: for every sorted sequence and key, each of the five generators yields
a non-empty trace whose last step is the unique step with `done = true`. -/
theorem claim_C5_unique_done (arr : List Int) (x : Int)
    (hs : List.Sorted (· ≤ ·) arr) :
    (∃ t s, steps_find_any arr x = t ++ [s] ∧ s.done = true ∧
      ∀ u ∈ t, u.done = false) ∧
    (∃ t s, steps_first_occurrence arr x = t ++ [s] ∧ s.done = true ∧
      ∀ u ∈ t, u.done = false) ∧
    (∃ t s, steps_last_occurrence arr x = t ++ [s] ∧ s.done = true ∧
      ∀ u ∈ t, u.done = false) ∧
    (∃ t s, steps_bisect_left arr x = t ++ [s] ∧ s.done = true ∧
      ∀ u ∈ t, u.done = false) ∧
    (∃ t s, steps_bisect_right arr x = t ++ [s] ∧ s.done = true ∧
      ∀ u ∈ t, u.done = false) := by
  obtain ⟨t, s, h1, h2, h3, -⟩ := find_any_loop_split arr x 0 ((arr.length : Int) - 1)
  exact ⟨⟨t, s, h1, h2, h3⟩,
    first_occ_loop_split arr x 0 ((arr.length : Int) - 1) (-1),
    last_occ_loop_split arr x 0 ((arr.length : Int) - 1) (-1),
    bisect_left_loop_split arr x 0 (arr.length : Int),
    bisect_right_loop_split arr x 0 (arr.length : Int)⟩

/-- Witness for C5 at `S = [3, 5, 9]`, `k = 9`. -/
theorem claim_C5_unique_done_witness :
    List.Sorted (· ≤ ·) ([3, 5, 9] : List Int) ∧
    ((∃ t s, steps_find_any [3, 5, 9] 9 = t ++ [s] ∧ s.done = true ∧
      ∀ u ∈ t, u.done = false) ∧
    (∃ t s, steps_first_occurrence [3, 5, 9] 9 = t ++ [s] ∧ s.done = true ∧
      ∀ u ∈ t, u.done = false) ∧
    (∃ t s, steps_last_occurrence [3, 5, 9] 9 = t ++ [s] ∧ s.done = true ∧
      ∀ u ∈ t, u.done = false) ∧
    (∃ t s, steps_bisect_left [3, 5, 9] 9 = t ++ [s] ∧ s.done = true ∧
      ∀ u ∈ t, u.done = false) ∧
    (∃ t s, steps_bisect_right [3, 5, 9] 9 = t ++ [s] ∧ s.done = true ∧
      ∀ u ∈ t, u.done = false)) :=
  ⟨by decide, claim_C5_unique_done [3, 5, 9] 9 (by decide)⟩

/-! ### Claim C8: empty input -/

/-- C8: on the empty sequence every generator yields exactly one step, a
FINAL step with `done = true`, with payload `-1` for the presence and
occurrence variants and `0` for the bisect variants. -/
theorem claim_C8_empty_input (x : Int) :
    (∃ s : Step, steps_find_any [] x = [s] ∧ s.relation = "final" ∧
      s.done = true ∧ s.payload = some (-1)) ∧
    (∃ s : Step, steps_first_occurrence [] x = [s] ∧ s.relation = "final" ∧
      s.done = true ∧ s.payload = some (-1)) ∧
    (∃ s : Step, steps_last_occurrence [] x = [s] ∧ s.relation = "final" ∧
      s.done = true ∧ s.payload = some (-1)) ∧
    (∃ s : Step, steps_bisect_left [] x = [s] ∧ s.relation = "final" ∧
      s.done = true ∧ s.payload = some 0) ∧
    (∃ s : Step, steps_bisect_right [] x = [s] ∧ s.relation = "final" ∧
      s.done = true ∧ s.payload = some 0) := by
  have e1 : steps_find_any [] x =
      [⟨0, -1, 0, "final", "Non trouvé.", true, some (-1)⟩] := by
    simp [steps_find_any, steps_find_any_loop]
  have e2 : steps_first_occurrence [] x =
      [⟨0, -1, 0, "final", "Première occurrence = " ++ toString (-1 : Int) ++ ".",
        true, some (-1)⟩] := by
    simp [steps_first_occurrence, steps_first_occurrence_loop]
  have e3 : steps_last_occurrence [] x =
      [⟨0, -1, -1, "final", "Dernière occurrence = " ++ toString (-1 : Int) ++ ".",
        true, some (-1)⟩] := by
    simp [steps_last_occurrence, steps_last_occurrence_loop]
  have e4 : steps_bisect_left [] x =
      [⟨0, -1, 0, "final", "Position d\x27insertion (gauche) = " ++ toString (0 : Int) ++ ".",
        true, some 0⟩] := by
    simp [steps_bisect_left, steps_bisect_left_loop]
  have e5 : steps_bisect_right [] x =
      [⟨0, -1, 0, "final", "Position d\x27insertion (droite) = " ++ toString (0 : Int) ++ ".",
        true, some 0⟩] := by
    simp [steps_bisect_right, steps_bisect_right_loop]
  exact ⟨⟨_, e1, rfl, rfl, rfl⟩, ⟨_, e2, rfl, rfl, rfl⟩, ⟨_, e3, rfl, rfl, rfl⟩,
    ⟨_, e4, rfl, rfl, rfl⟩, ⟨_, e5, rfl, rfl, rfl⟩⟩

/-! ### Claim C10: in-bounds access -/

lemma find_any_loop_mid_bound (arr : List Int) (x : Int) (g d : Int) :
    0 ≤ g → d < (arr.length : Int) →
    ∀ s ∈ steps_find_any_loop arr x g d, s.relation ≠ "final" →
      0 ≤ s.mid ∧ s.mid < (arr.length : Int) := by
  induction g, d using steps_find_any_loop.induct arr x with
  | case1 g d hgd m v hv =>
    intro hg hd s hsmem hrel
    rw [steps_find_any_loop] at hsmem
    simp only [dif_pos hgd, if_pos hv, List.mem_singleton] at hsmem
    subst hsmem
    have hm := fdiv_mid_bounds hgd
    constructor
    · show (0 : Int) ≤ m
      omega
    · show m < (arr.length : Int)
      omega
  | case2 g d hgd m v hne hlt ih =>
    intro hg hd s hsmem hrel
    rw [steps_find_any_loop] at hsmem
    simp only [dif_pos hgd, if_neg hne, if_pos hlt, List.mem_cons] at hsmem
    have hm := fdiv_mid_bounds hgd
    rcases hsmem with rfl | hsmem
    · constructor
      · show (0 : Int) ≤ m
        omega
      · show m < (arr.length : Int)
        omega
    · exact ih (by omega) hd s hsmem hrel
  | case3 g d hgd m v hne hnlt ih =>
    intro hg hd s hsmem hrel
    rw [steps_find_any_loop] at hsmem
    simp only [dif_pos hgd, if_neg hne, if_neg hnlt, List.mem_cons] at hsmem
    have hm := fdiv_mid_bounds hgd
    rcases hsmem with rfl | hsmem
    · constructor
      · show (0 : Int) ≤ m
        omega
      · show m < (arr.length : Int)
        omega
    · exact ih hg (by omega) s hsmem hrel
  | case4 g d hgd =>
    intro hg hd s hsmem hrel
    rw [steps_find_any_loop] at hsmem
    simp only [dif_neg hgd, List.mem_singleton] at hsmem
    subst hsmem
    exact absurd rfl hrel

lemma first_occ_loop_mid_bound (arr : List Int) (x : Int) (g d res : Int) :
    0 ≤ g → d < (arr.length : Int) →
    ∀ s ∈ steps_first_occurrence_loop arr x g d res, s.relation ≠ "final" →
      0 ≤ s.mid ∧ s.mid < (arr.length : Int) := by
  induction g, d, res using steps_first_occurrence_loop.induct arr x with
  | case1 g d res hgd m v hge hv ih =>
    intro hg hd s hsmem hrel
    rw [steps_first_occurrence_loop] at hsmem
    simp only [dif_pos hgd, if_pos hge, if_pos hv, List.mem_cons] at hsmem
    have hm := fdiv_mid_bounds hgd
    rcases hsmem with rfl | hsmem
    · constructor
      · show (0 : Int) ≤ m
        omega
      · show m < (arr.length : Int)
        omega
    · exact ih hg (by omega) s hsmem hrel
  | case2 g d res hgd m v hge hv ih =>
    intro hg hd s hsmem hrel
    rw [steps_first_occurrence_loop] at hsmem
    simp only [dif_pos hgd, if_pos hge, if_neg hv, List.mem_cons] at hsmem
    have hm := fdiv_mid_bounds hgd
    rcases hsmem with rfl | hsmem
    · constructor
      · show (0 : Int) ≤ m
        omega
      · show m < (arr.length : Int)
        omega
    · exact ih hg (by omega) s hsmem hrel
  | case3 g d res hgd m v hge ih =>
    intro hg hd s hsmem hrel
    rw [steps_first_occurrence_loop] at hsmem
    simp only [dif_pos hgd, if_neg hge, List.mem_cons] at hsmem
    have hm := fdiv_mid_bounds hgd
    rcases hsmem with rfl | hsmem
    · constructor
      · show (0 : Int) ≤ m
        omega
      · show m < (arr.length : Int)
        omega
    · exact ih (by omega) hd s hsmem hrel
  | case4 g d res hgd =>
    intro hg hd s hsmem hrel
    rw [steps_first_occurrence_loop] at hsmem
    simp only [dif_neg hgd, List.mem_singleton] at hsmem
    subst hsmem
    exact absurd rfl hrel

lemma last_occ_loop_mid_bound (arr : List Int) (x : Int) (g d res : Int) :
    0 ≤ g → d < (arr.length : Int) →
    ∀ s ∈ steps_last_occurrence_loop arr x g d res, s.relation ≠ "final" →
      0 ≤ s.mid ∧ s.mid < (arr.length : Int) := by
  induction g, d, res using steps_last_occurrence_loop.induct arr x with
  | case1 g d res hgd m v hle hv ih =>
    intro hg hd s hsmem hrel
    rw [steps_last_occurrence_loop] at hsmem
    simp only [dif_pos hgd, if_pos hle, if_pos hv, List.mem_cons] at hsmem
    have hm := fdiv_mid_bounds hgd
    rcases hsmem with rfl | hsmem
    · constructor
      · show (0 : Int) ≤ m
        omega
      · show m < (arr.length : Int)
        omega
    · exact ih (by omega) hd s hsmem hrel
  | case2 g d res hgd m v hle hv ih =>
    intro hg hd s hsmem hrel
    rw [steps_last_occurrence_loop] at hsmem
    simp only [dif_pos hgd, if_pos hle, if_neg hv, List.mem_cons] at hsmem
    have hm := fdiv_mid_bounds hgd
    rcases hsmem with rfl | hsmem
    · constructor
      · show (0 : Int) ≤ m
        omega
      · show m < (arr.length : Int)
        omega
    · exact ih (by omega) hd s hsmem hrel
  | case3 g d res hgd m v hle ih =>
    intro hg hd s hsmem hrel
    rw [steps_last_occurrence_loop] at hsmem
    simp only [dif_pos hgd, if_neg hle, List.mem_cons] at hsmem
    have hm := fdiv_mid_bounds hgd
    rcases hsmem with rfl | hsmem
    · constructor
      · show (0 : Int) ≤ m
        omega
      · show m < (arr.length : Int)
        omega
    · exact ih hg (by omega) s hsmem hrel
  | case4 g d res hgd =>
    intro hg hd s hsmem hrel
    rw [steps_last_occurrence_loop] at hsmem
    simp only [dif_neg hgd, List.mem_singleton] at hsmem
    subst hsmem
    exact absurd rfl hrel

lemma bisect_left_loop_mid_bound (arr : List Int) (x : Int) (g d : Int) :
    0 ≤ g → d ≤ (arr.length : Int) →
    ∀ s ∈ steps_bisect_left_loop arr x g d, s.relation ≠ "final" →
      0 ≤ s.mid ∧ s.mid < (arr.length : Int) := by
  induction g, d using steps_bisect_left_loop.induct arr x with
  | case1 g d hgd m v hv ih =>
    intro hg hd s hsmem hrel
    rw [steps_bisect_left_loop] at hsmem
    simp only [dif_pos hgd, if_pos hv, List.mem_cons] at hsmem
    have hm := fdiv_mid_bounds (le_of_lt hgd)
    have hmd : m < d := by
      have := fdiv_two (g + d)
      omega
    rcases hsmem with rfl | hsmem
    · constructor
      · show (0 : Int) ≤ m
        omega
      · show m < (arr.length : Int)
        omega
    · exact ih (by omega) hd s hsmem hrel
  | case2 g d hgd m v hv ih =>
    intro hg hd s hsmem hrel
    rw [steps_bisect_left_loop] at hsmem
    simp only [dif_pos hgd, if_neg hv, List.mem_cons] at hsmem
    have hm := fdiv_mid_bounds (le_of_lt hgd)
    have hmd : m < d := by
      have := fdiv_two (g + d)
      omega
    rcases hsmem with rfl | hsmem
    · constructor
      · show (0 : Int) ≤ m
        omega
      · show m < (arr.length : Int)
        omega
    · exact ih hg (by omega) s hsmem hrel
  | case3 g d hgd =>
    intro hg hd s hsmem hrel
    rw [steps_bisect_left_loop] at hsmem
    simp only [dif_neg hgd, List.mem_singleton] at hsmem
    subst hsmem
    exact absurd rfl hrel

lemma bisect_right_loop_mid_bound (arr : List Int) (x : Int) (g d : Int) :
    0 ≤ g → d ≤ (arr.length : Int) →
    ∀ s ∈ steps_bisect_right_loop arr x g d, s.relation ≠ "final" →
      0 ≤ s.mid ∧ s.mid < (arr.length : Int) := by
  induction g, d using steps_bisect_right_loop.induct arr x with
  | case1 g d hgd m v hv ih =>
    intro hg hd s hsmem hrel
    rw [steps_bisect_right_loop] at hsmem
    simp only [dif_pos hgd, if_pos hv, List.mem_cons] at hsmem
    have hm := fdiv_mid_bounds (le_of_lt hgd)
    have hmd : m < d := by
      have := fdiv_two (g + d)
      omega
    rcases hsmem with rfl | hsmem
    · constructor
      · show (0 : Int) ≤ m
        omega
      · show m < (arr.length : Int)
        omega
    · exact ih (by omega) hd s hsmem hrel
  | case2 g d hgd m v hv ih =>
    intro hg hd s hsmem hrel
    rw [steps_bisect_right_loop] at hsmem
    simp only [dif_pos hgd, if_neg hv, List.mem_cons] at hsmem
    have hm := fdiv_mid_bounds (le_of_lt hgd)
    have hmd : m < d := by
      have := fdiv_two (g + d)
      omega
    rcases hsmem with rfl | hsmem
    · constructor
      · show (0 : Int) ≤ m
        omega
      · show m < (arr.length : Int)
        omega
    · exact ih hg (by omega) s hsmem hrel
  | case3 g d hgd =>
    intro hg hd s hsmem hrel
    rw [steps_bisect_right_loop] at hsmem
    simp only [dif_neg hgd, List.mem_singleton] at hsmem
    subst hsmem
    exact absurd rfl hrel

/-- C10: for every integer list (sorted or not) and key, every non-FINAL step
of every generator records an in-bounds midpoint `0 ≤ mid < len(arr)`; since
each loop iteration reads `arr` exactly at its recorded midpoint, no
generator ever performs an out-of-range access. -/
theorem claim_C10_inbounds (arr : List Int) (x : Int) :
    ((steps_find_any arr x).all fun s => s.relation == "final" ||
      (decide (0 ≤ s.mid) && decide (s.mid < (arr.length : Int)))) = true ∧
    ((steps_first_occurrence arr x).all fun s => s.relation == "final" ||
      (decide (0 ≤ s.mid) && decide (s.mid < (arr.length : Int)))) = true ∧
    ((steps_last_occurrence arr x).all fun s => s.relation == "final" ||
      (decide (0 ≤ s.mid) && decide (s.mid < (arr.length : Int)))) = true ∧
    ((steps_bisect_left arr x).all fun s => s.relation == "final" ||
      (decide (0 ≤ s.mid) && decide (s.mid < (arr.length : Int)))) = true ∧
    ((steps_bisect_right arr x).all fun s => s.relation == "final" ||
      (decide (0 ≤ s.mid) && decide (s.mid < (arr.length : Int)))) = true := by
  refine ⟨?_, ?_, ?_, ?_, ?_⟩
  · rw [List.all_eq_true]
    intro s hsm
    by_cases hrel : s.relation = "final"
    · simp [hrel]
    · have h := find_any_loop_mid_bound arr x 0 ((arr.length : Int) - 1)
        le_rfl (by omega) s hsm hrel
      simp [hrel, h.1, h.2]
  · rw [List.all_eq_true]
    intro s hsm
    by_cases hrel : s.relation = "final"
    · simp [hrel]
    · have h := first_occ_loop_mid_bound arr x 0 ((arr.length : Int) - 1) (-1)
        le_rfl (by omega) s hsm hrel
      simp [hrel, h.1, h.2]
  · rw [List.all_eq_true]
    intro s hsm
    by_cases hrel : s.relation = "final"
    · simp [hrel]
    · have h := last_occ_loop_mid_bound arr x 0 ((arr.length : Int) - 1) (-1)
        le_rfl (by omega) s hsm hrel
      simp [hrel, h.1, h.2]
  · rw [List.all_eq_true]
    intro s hsm
    by_cases hrel : s.relation = "final"
    · simp [hrel]
    · have h := bisect_left_loop_mid_bound arr x 0 (arr.length : Int)
        le_rfl le_rfl s hsm hrel
      simp [hrel, h.1, h.2]
  · rw [List.all_eq_true]
    intro s hsm
    by_cases hrel : s.relation = "final"
    · simp [hrel]
    · have h := bisect_right_loop_mid_bound arr x 0 (arr.length : Int)
        le_rfl le_rfl s hsm hrel
      simp [hrel, h.1, h.2]

/-! ### Claim C9: the `left + right < 0` edge of the presence search -/

/-- Counterexample to C9 as stated: on the non-empty input `[5]` with key
`3`, the presence loop also exits with `left = 0 > right = -1`, so
`left + right < 0` is reached although the sequence is not empty. -/
theorem claim_C9_counterexample :
    ((steps_find_any [5] 3).getLast?.map fun s => (s.left, s.right)) = some (0, -1) ∧
    ([(5 : Int)] : List Int) ≠ [] := by
  constructor
  · simp [steps_find_any, steps_find_any_loop]
  · simp

/-- C9 (amended): whenever the presence loop exits with a FINAL step whose
bounds satisfy `left + right < 0`, the synthetic midpoint of that step is
`0`; this situation arises for the empty input (where the final step has
bounds `(0, -1)` and mid `0`), but also for some non-empty inputs. -/
theorem claim_C9_final_mid (arr : List Int) (x : Int) :
    (∀ s : Step, (steps_find_any arr x).getLast? = some s → s.relation = "final" →
      s.left + s.right < 0 → s.mid = 0) ∧
    (arr = [] →
      ((steps_find_any arr x).getLast?.map fun s => (s.left, s.right, s.mid)) =
        some (0, -1, 0)) := by
  constructor
  · intro s hlast hrel hlr
    obtain ⟨t, s', heq, hdone, hall, hfin⟩ :=
      find_any_loop_split arr x 0 ((arr.length : Int) - 1)
    rw [show steps_find_any arr x =
        steps_find_any_loop arr x 0 ((arr.length : Int) - 1) from rfl,
      heq, List.getLast?_concat] at hlast
    have hss : s' = s := by
      injection hlast
    subst hss
    obtain ⟨h1, h2, h3⟩ := hfin hrel
    rw [h3, if_neg (by omega)]
  · intro he
    subst he
    simp [steps_find_any, steps_find_any_loop]

/-- Witness for the amended C9: the first part applied to the non-empty input
`[5]` with key `3` (whose final step has bounds `(0, -1)`), the second to the
empty input. -/
theorem claim_C9_final_mid_witness :
    (Step.mk 0 (-1) 0 "final" "Non trouvé." true (some (-1))).mid = 0 ∧
    ((steps_find_any ([] : List Int) 3).getLast?.map fun s => (s.left, s.right, s.mid)) =
      some (0, -1, 0) :=
  ⟨(claim_C9_final_mid [5] 3).1 (Step.mk 0 (-1) 0 "final" "Non trouvé." true (some (-1)))
      (by simp [steps_find_any, steps_find_any_loop]) rfl
      (by show (0 : Int) + -1 < 0; norm_num),
    (claim_C9_final_mid [] 3).2 rfl⟩
